import Mathlib

/-!
# fibdrv: a shallow embedding of `fibdrv.c` and proofs about it

The definitions below transcribe the functions of `src/fibdrv.c`.

* `unsigned int` values are natural numbers below `2^32`; `long long` and
  `loff_t` values are integers, every arithmetic result being reduced to the
  signed 64-bit range by `wrap64` (the kernel is built with
  `-fno-strict-overflow`, so signed arithmetic wraps).
* A `BigN` is the triple of the C struct: the limb array `val`, the limb count
  `size` and the `sign` flag.  Allocation is assumed to succeed.
* A function whose C source has no result on some input (the `int` loop
  counter runs past `INT_MAX`, `__builtin_clz` is applied to `0`, a byte is
  written in front of the buffer) returns `none` there.
* Loops are recursive functions with a step budget (`fuel`), so that they can be
  evaluated; each caller passes a budget the loop provably never exhausts.
-/

namespace Fibdrv

/-! ## Machine integers -/

/-- Largest value of a C `int`. -/
def INT_MAX : Int := 2147483647

/-- Largest value of a C `unsigned int`. -/
def UINT_MAX : Nat := 4294967295

/-- Reduction of an integer to the signed 64-bit range `[-2^63, 2^63)` (two's
complement): `2^63 = 9223372036854775808`, `2^64 = 18446744073709551616`. -/
def wrap64 (x : Int) : Int :=
  (x + 9223372036854775808) % 18446744073709551616 - 9223372036854775808

/-- Reduction of an integer to the signed 32-bit range `[-2^31, 2^31)` (conversion to
`int`): `2^31 = 2147483648`, `2^32 = 4294967296`. -/
def wrap32 (x : Int) : Int := (x + 2147483648) % 4294967296 - 2147483648

/-- Whether an exact integer result is representable as a `long long`. -/
def fits64 (x : Int) : Bool :=
  decide (-9223372036854775808 ≤ x) && decide (x < 9223372036854775808)

/-! ## `BigN` -/

/-- The struct `BigN`: limbs (least significant first), limb count and sign flag. -/
structure BigN where
  val : List Nat
  size : Nat
  sign : Int
  deriving DecidableEq, Repr

/-- `BigN_new(size)`: `size` zero limbs, sign `0`. -/
def BigN_new (size : Nat) : BigN :=
  { val := List.replicate size 0, size := size, sign := 0 }

/-- The loop `for (int i = 0; i < sum->size; i++)` of `BigN_add`: `r` iterations remain,
`i` is the limb index, `carry` the carry into limb `i`, `sumval` the limbs of `sum`
written so far.  The sum `s` is an `unsigned long`, wide enough for three 32-bit terms. -/
def BigN_add_loop (a b : BigN) : Nat → Nat → Nat → List Nat → List Nat
  | 0, _, _, sumval => sumval
  | r + 1, i, carry, sumval =>
    let tmp1 := if a.size > i then a.val.getD i 0 else 0
    let tmp2 := if b.size > i then b.val.getD i 0 else 0
    let s := tmp1 + tmp2 + carry
    BigN_add_loop a b r (i + 1) (if s > UINT_MAX then 1 else 0) (sumval.set i (s &&& UINT_MAX))

/-- `BigN_add(a, b)`: a fresh `BigN` of `max(a.size, b.size) + 1` limbs (an `unsigned
int`, hence the reduction modulo `2^32`), filled limb by limb with carry, its size
reduced by one when the top limb is zero.  The operands are only read. -/
def BigN_add (a b : BigN) : BigN :=
  let size := ((if a.size > b.size then a.size else b.size) + 1) % 4294967296
  let sum := BigN_new size
  let sumval := BigN_add_loop a b sum.size 0 0 sum.val
  if sumval.getD (sum.size - 1) 0 = 0 then
    { sum with val := sumval, size := sum.size - 1 }
  else
    { sum with val := sumval }

/-- The number a `BigN` stands for: the sum over `i < size` of `val[i] * 2^(32*i)`. -/
def magnitude (n : BigN) : Nat :=
  ((List.range n.size).map (fun i => n.val.getD i 0 * 2 ^ (32 * i))).sum

/-- Representation invariant of a `BigN` held in memory: `size` limbs are allocated,
each is an `unsigned int`, and the limb count is small enough for the `int` counters
that index limbs and decimal digits (`(32 * size) / 3 + 1` digits in `BigN_to_string`). -/
def BigN.wf (n : BigN) : Prop :=
  n.size ≤ n.val.length ∧ (∀ x ∈ n.val, x < 2 ^ 32) ∧ 32 * n.size / 3 + 3 < 2 ^ 31

/-! ## `BigN_to_string`

The character buffer is a list of byte values (`'0'` is `48`, `'9'` is `57`, `'-'` is
`45`, NUL is `0`).  Every byte the digit loop reads is a digit, so `s[j] - '0'` is not
negative and `s[j] + (s[j] - '0') + carry` is at most `67`: it fits a `char`. -/

/-- The loop `for (int j = len - 2; j >= 0; j--)`: the first argument is `j + 1`.  It
doubles the decimal number held in `s[0 .. j]` and adds `carry`. -/
def BigN_to_string_digits : Nat → Nat → List Nat → List Nat
  | 0, _, s => s
  | j + 1, carry, s =>
    let x := s.getD j 0 + (s.getD j 0 - 48) + carry
    let carry := if x > 57 then 1 else 0
    let x := if carry ≠ 0 then x - 10 else x
    BigN_to_string_digits j carry (s.set j x)

/-- The loop `for (unsigned int d = 1U << 31; d; d >>= 1)` over the bits of one limb,
from mask `d`; `j0` is the start value `len - 2` of the digit index.  A 32-bit mask is
zero after 32 shifts, so a budget of 32 steps is never exhausted. -/
def BigN_to_string_bits (limb : Nat) (j0 : Int) : Nat → Nat → List Nat → List Nat
  | 0, _, s => s
  | fuel + 1, d, s =>
    if d = 0 then s
    else
      let carry := if (d &&& limb) > 0 then 1 else 0
      BigN_to_string_bits limb j0 fuel (d / 2) (BigN_to_string_digits (j0 + 1).toNat carry s)

/-- The loop `for (int i = num->size - 1; i >= 0; i--)`: the first argument is `i + 1`. -/
def BigN_to_string_limbs (num : BigN) (j0 : Int) : Nat → List Nat → List Nat
  | 0, s => s
  | i + 1, s =>
    BigN_to_string_limbs num j0 i (BigN_to_string_bits (num.val.getD i 0) j0 32 (2 ^ 31) s)

/-- The loop `while (p[0] == '0' && p[1] != '\0') p++`, `p` being an index into `s`.
The loop stops at the NUL that ends `s`, so a budget of `s.length` steps is never
exhausted. -/
def BigN_to_string_skip (s : List Nat) : Nat → Nat → Nat
  | 0, p => p
  | fuel + 1, p =>
    if s.getD p 0 = 48 ∧ s.getD (p + 1) 0 ≠ 0 then BigN_to_string_skip s fuel (p + 1) else p

/-- `strlen` of the bytes `s`. -/
def strlen (s : List Nat) : Nat := (s.takeWhile (fun c => c ≠ 0)).length

/-- `memmove(s, s + p, n)`: bytes `p .. p + n - 1` of `s` copied to its front. -/
def memmove (s : List Nat) (p n : Nat) : List Nat :=
  ((s.drop p).take n) ++ s.drop n

/-- `BigN_to_string(s, num)`: the bytes of `s[0 .. len - 1]` after the call; `none` when
the sign would be written in front of the buffer. -/
def BigN_to_string (num : BigN) : Option (List Nat) :=
  let len : Nat := (((32 * num.size / 3 + 2 : Nat) + num.sign) % 18446744073709551616).toNat
  let s := List.replicate (len - 1) 48 ++ [0]
  let j0 := wrap32 ((len : Int) - 2)
  let s := BigN_to_string_limbs num j0 (wrap32 ((num.size : Int) - 1) + 1).toNat s
  let p := BigN_to_string_skip s s.length 0
  if num.sign ≠ 0 then
    if p = 0 then none
    else
      let s := s.set (p - 1) 45
      some (memmove s (p - 1) (strlen (s.drop (p - 1)) + 1))
  else some (memmove s p (strlen (s.drop p) + 1))

/-- The C string held in a buffer: the bytes in front of the first NUL. -/
def cstring (s : List Nat) : List Nat := s.takeWhile (fun c => c ≠ 0)

/-- The decimal numeral of a natural number as bytes, most significant digit first;
`0` is the single digit `'0'`.  (`decimal_spec` below: the bytes are digits, they
write the number, and the first is not `'0'` unless the number is `0`.) -/
def decimal (m : Nat) : List Nat :=
  if m = 0 then [48] else (Nat.digits 10 m).reverse.map (fun d => d + 48)

/-! ## `fib_sequence_BigN` -/

/-- The loop `for (int i = 2; i <= k; i++)` of `fib_sequence_BigN`.  When the body runs
with the counter at `INT_MAX`, the following `i++` overflows `int` (wrapping to
`INT_MIN` it keeps `i <= k` true for ever): the loop has no result. -/
def fib_sequence_BigN_loop (k : Int) : Nat → Int → BigN → BigN → Option BigN
  | 0, _, _, _ => none
  | fuel + 1, i, a, b =>
    if i ≤ k then
      if i = INT_MAX then none
      else fib_sequence_BigN_loop k fuel (i + 1) b (BigN_add a b)
    else some b

/-- `fib_sequence_BigN(k)`.  The loop tests `i <= k` at most `k` times before it ends,
so a budget of `k + 1` steps is never exhausted. -/
def fib_sequence_BigN (k : Int) : Option BigN :=
  let a := BigN_new 1
  let b := { BigN_new 1 with val := (BigN_new 1).val.set 0 1 }
  if k = 0 then some a
  else fib_sequence_BigN_loop k (k.toNat + 1) 2 a b

/-- The length `len` that `BigN_to_string` computes: `(8 * sizeof(int) * size) / 3 + 2 +
sign`, a `size_t`. -/
def BigN_to_string_len (num : BigN) : Nat :=
  (((32 * num.size / 3 + 2 : Nat) + num.sign) % 18446744073709551616).toNat

/-- `fib_read` at position `k`: the text left in its array `char fib[64]` by
`BigN_to_string(fib, fib_sequence_BigN(k))`.  `BigN_to_string` writes the bytes
`s[0 .. len - 1]`; when `len` exceeds the 64 bytes of the array the writes run past its
end, and there is no result. -/
def fib_read_text (k : Int) : Option (List Nat) :=
  match fib_sequence_BigN k with
  | none => none
  | some n =>
    if BigN_to_string_len n ≤ 64 then (BigN_to_string n).map cstring else none

/-! ## `fib_sequence` -/

/-- The loop `for (int i = 2; i <= k; i++)` of `fib_sequence`; as in
`fib_sequence_BigN_loop` there is no result when the counter would pass `INT_MAX`.  The
flag `ok` is a ghost: it records that every exact sum `a + b` formed so far was
representable as a `long long`. -/
def fib_sequence_loop (k : Int) : Nat → Int → Int → Int → Bool → Option (Int × Bool)
  | 0, _, _, _, _ => none
  | fuel + 1, i, a, b, ok =>
    if i ≤ k then
      if i = INT_MAX then none
      else fib_sequence_loop k fuel (i + 1) b (wrap64 (a + b)) (ok && fits64 (a + b))
    else some (b, ok)

/-- The run of `fib_sequence(k)`: the value returned and the ghost flag.  The budget
`k + 1` is never exhausted. -/
def fib_sequence_run (k : Int) : Option (Int × Bool) :=
  if k = 0 then some (0, true)
  else fib_sequence_loop k (k.toNat + 1) 2 0 1 true

/-- `fib_sequence(k)`. -/
def fib_sequence (k : Int) : Option Int := (fib_sequence_run k).map Prod.fst

/-! ## Fast doubling -/

/-- The body of the doubling loop for mask `i`, on the pair `(a, b)`. -/
def fd_step (n : Int) (i : Nat) (s : Int × Int) : Int × Int :=
  let a := s.1
  let b := s.2
  let t1 := wrap64 (a * wrap64 (wrap64 (2 * b) - a))
  let t2 := wrap64 (wrap64 (a * a) + wrap64 (b * b))
  if Int.land n (i : Int) ≠ 0 then (t2, wrap64 (t1 + t2)) else (t1, t2)

/-- The loop `for (unsigned int i = start; i; i >>= 1)`: the pair `(a, b)` after at most
`t` iterations, started at mask `i` with the pair `s`. -/
def fd_loop (n : Int) : Nat → Nat → Int × Int → Int × Int
  | 0, _, s => s
  | t + 1, i, s => if i = 0 then s else fd_loop n t (i / 2) (fd_step n i s)

/-- `fast_doubling(n)`.  A 32-bit mask is zero after 32 shifts, so the loop has ended
within 32 iterations. -/
def fast_doubling (n : Int) : Int := (fd_loop n 32 (2 ^ 31) (0, 1)).1

/-- `__builtin_clz(x)` for a 32-bit `x`: the number of leading zero bits; the compiler
defines no result for `x = 0`. -/
def builtin_clz (x : Nat) : Option Nat :=
  if x = 0 then none else some (31 - Nat.log2 x)

/-- `fast_doubling_clz(n)`: the argument of `__builtin_clz` is `n` converted to
`unsigned int`. -/
def fast_doubling_clz (n : Int) : Option Int :=
  match builtin_clz (n % 4294967296).toNat with
  | none => none
  | some c => some (fd_loop n 32 (2 ^ (31 - c)) (0, 1)).1

/-! ## `fib_device_lseek` -/

/-- The macro `MAX_LENGTH`. -/
def MAX_LENGTH : Int := 100

/-- The part of `struct file` the driver uses. -/
structure File where
  f_pos : Int
  deriving DecidableEq, Repr

/-- `fib_device_lseek(file, offset, orig)`: the file after the call and the value
returned. -/
def fib_device_lseek (file : File) (offset : Int) (orig : Int) : File × Int :=
  let new_pos : Int :=
    if orig = 0 then offset
    else if orig = 1 then wrap64 (file.f_pos + offset)
    else if orig = 2 then wrap64 (MAX_LENGTH - offset)
    else 0
  let new_pos := if new_pos > MAX_LENGTH then MAX_LENGTH else new_pos
  let new_pos := if new_pos < 0 then 0 else new_pos
  ({ file with f_pos := new_pos }, new_pos)

/-! ## Ghost views of the doubling loop -/

/-- The exact (unreduced) value of every arithmetic result one iteration of the doubling
loop forms from the pair `(a, b)`: `2 * b`, `2 * b - a`, `t1 = a * (2 * b - a)`, `a * a`,
`b * b`, `t2 = a * a + b * b`, and `t1 + t2` when the bit of `n` under mask `i` is set. -/
def fd_step_values (n : Int) (i : Nat) (s : Int × Int) : List Int :=
  let a := s.1
  let b := s.2
  let t1 := wrap64 (a * wrap64 (wrap64 (2 * b) - a))
  let t2 := wrap64 (wrap64 (a * a) + wrap64 (b * b))
  [2 * b, wrap64 (2 * b) - a, a * wrap64 (wrap64 (2 * b) - a), a * a, b * b,
    wrap64 (a * a) + wrap64 (b * b)]
    ++ (if Int.land n (i : Int) ≠ 0 then [t1 + t2] else [])

/-- The iterations of `fd_loop`, in order: the mask and the pair `(a, b)` each one
starts from.  The control is that of `fd_loop`. -/
def fd_loop_trace (n : Int) : Nat → Nat → Int × Int → List (Nat × (Int × Int))
  | 0, _, _ => []
  | t + 1, i, s => if i = 0 then [] else (i, s) :: fd_loop_trace n t (i / 2) (fd_step n i s)

/-- The iterations of the loop of `fast_doubling(n)`. -/
def fast_doubling_trace (n : Int) : List (Nat × (Int × Int)) :=
  fd_loop_trace n 32 (2 ^ 31) (0, 1)

/-- The iterations of the loop of `fast_doubling_clz(n)`; none when `__builtin_clz` has
no result. -/
def fast_doubling_clz_trace (n : Int) : Option (List (Nat × (Int × Int))) :=
  match builtin_clz (n % 4294967296).toNat with
  | none => none
  | some c => some (fd_loop_trace n 32 (2 ^ (31 - c)) (0, 1))

/-- The start mask `1U << (31 - __builtin_clz(n))` of the loop of `fast_doubling_clz` as
the compiled function has it.  Where `__builtin_clz` has no defined result (argument
`0`), the mask is whatever `unsigned int` the machine yields: the parameter `u`. -/
def fast_doubling_clz_start (u : Nat) (n : Int) : Nat :=
  match builtin_clz (n % 4294967296).toNat with
  | none => u % 4294967296
  | some c => 2 ^ (31 - c)

/-- `fast_doubling_clz(n)` as the compiled function runs, with `u` the start mask the
machine yields on the argument `0`. -/
def fast_doubling_clz_run (u : Nat) (n : Int) : Int :=
  (fd_loop n 32 (fast_doubling_clz_start u n) (0, 1)).1

/-- The iterations of the loop of `fast_doubling_clz(n)` as the compiled function runs. -/
def fast_doubling_clz_run_trace (u : Nat) (n : Int) : List (Nat × (Int × Int)) :=
  fd_loop_trace n 32 (fast_doubling_clz_start u n) (0, 1)

/-- Every arithmetic result formed in the iterations of a trace, exact. -/
def trace_values (n : Int) (tr : List (Nat × (Int × Int))) : List Int :=
  tr.flatMap (fun e => fd_step_values n e.1 e.2)

/-! ## `fib_write`

`ktime_get()` reads a clock outside the program: it is the parameter `clock`, reading
number `r` giving `clock r`.  `ktime_sub` is subtraction of 64-bit values and
`ktime_to_ns` is the identity (a `ktime_t` counts nanoseconds). -/

/-- The state `fib_write` works on: the static `kt` and two ghosts, the number of clock
readings taken so far and the selectors of the strategies invoked so far. -/
structure Driver where
  kt : Int
  clock_reads : Nat
  invoked : List Nat
  deriving DecidableEq, Repr

/-- The state when the module is loaded: a static `ktime_t` starts at zero. -/
def Driver.init : Driver := { kt := 0, clock_reads := 0, invoked := [] }

/-- One timed invocation `kt = ktime_get(); res = ...; kt = ktime_sub(ktime_get(), kt);`
of the strategy with selector `sel`. -/
def Driver.timed (clock : Nat → Int) (d : Driver) (sel : Nat) : Driver :=
  { kt := wrap64 (clock (d.clock_reads + 1) - clock d.clock_reads),
    clock_reads := d.clock_reads + 2,
    invoked := d.invoked ++ [sel] }

/-- `fib_write(file, buf, size, offset)`: the state after the call and the value
returned, `ktime_to_ns(kt)`; there is no result when the invoked strategy has none. -/
def fib_write (clock : Nat → Int) (d : Driver) (size : Nat) (offset : Int) :
    Option (Driver × Int) :=
  if size = 0 then
    (fib_sequence offset).map (fun _ => (d.timed clock 0, (d.timed clock 0).kt))
  else if size = 1 then
    (some (fast_doubling offset)).map (fun _ => (d.timed clock 1, (d.timed clock 1).kt))
  else if size = 2 then
    (fast_doubling_clz offset).map (fun _ => (d.timed clock 2, (d.timed clock 2).kt))
  else if size = 3 then
    (fib_sequence_BigN offset).map (fun _ => (d.timed clock 3, (d.timed clock 3).kt))
  else some (d, d.kt)

/-! ## Specification-side definitions -/

/-- The pair `(F(m), F(m+1))` of Fibonacci numbers, each reduced to a `long long`. -/
def fibPair (m : Nat) : Int × Int := (wrap64 (Nat.fib m), wrap64 (Nat.fib (m + 1)))

/-- Limb `i` of `n` as `BigN_add` reads it: `0` at and above `n.size`. -/
def limbAt (n : BigN) (i : Nat) : Nat := if n.size > i then n.val.getD i 0 else 0

/-- The carry into limb `i` of the sum of `a` and `b`. -/
def carryAt (a b : BigN) : Nat → Nat
  | 0 => 0
  | i + 1 => if limbAt a i + limbAt b i + carryAt a b i > UINT_MAX then 1 else 0

/-- Limb `i` of the sum of `a` and `b`. -/
def sumLimb (a b : BigN) (i : Nat) : Nat :=
  (limbAt a i + limbAt b i + carryAt a b i) &&& UINT_MAX

/-- The weighted sum of the first `m` values of `f`, value `i` weighing `2^(32*i)`. -/
def wsum (f : Nat → Nat) (m : Nat) : Nat :=
  ((List.range m).map (fun i => f i * 2 ^ (32 * i))).sum

/-- A `BigN` without a superfluous leading zero limb: at least one limb, the top limb
non-zero unless there is only one. -/
def BigN.normalized (n : BigN) : Prop :=
  1 ≤ n.size ∧ (n.size = 1 ∨ n.val.getD (n.size - 1) 0 ≠ 0)

/-- A `BigN` as the engine produces them: the limbs counted by `size` are allocated,
every limb is an `unsigned int`, and there is no superfluous leading zero limb. -/
def BigN.good (n : BigN) : Prop :=
  n.size ≤ n.val.length ∧ (∀ x ∈ n.val, x < 2 ^ 32) ∧ n.normalized

instance (n : BigN) : Decidable n.wf := by unfold BigN.wf; infer_instance

instance (n : BigN) : Decidable n.normalized := by unfold BigN.normalized; infer_instance

instance (n : BigN) : Decidable n.good := by unfold BigN.good; infer_instance

/-- The number written by a list of digit bytes, most significant first. -/
def decVal (s : List Nat) : Nat := s.foldl (fun acc c => 10 * acc + (c - 48)) 0

/-- Every byte of the list is one of `'0'` .. `'9'`. -/
def isDigits (s : List Nat) : Prop := ∀ c ∈ s, 48 ≤ c ∧ c ≤ 57

/-- The bytes of a text. -/
def bytes (s : String) : List Nat := s.toList.map Char.toNat

/-- Normalization in the words of the specification: at least one limb, and the most
significant limb non-zero unless the value is zero with size 1. -/
def BigN.normalized_spec (n : BigN) : Prop :=
  1 ≤ n.size ∧ (n.val.getD (n.size - 1) 0 ≠ 0 ∨ (magnitude n = 0 ∧ n.size = 1))

/-! ## Machine arithmetic -/

theorem wrap64_modEq (x : Int) : wrap64 x ≡ x [ZMOD 18446744073709551616] := by
  unfold wrap64
  have h : (x + 9223372036854775808) % 18446744073709551616 ≡ x + 9223372036854775808
      [ZMOD 18446744073709551616] := Int.mod_modEq _ _
  have h3 := h.sub_right (9223372036854775808 : Int)
  rwa [add_sub_cancel_right] at h3

theorem wrap64_congr {x y : Int} (h : x ≡ y [ZMOD 18446744073709551616]) :
    wrap64 x = wrap64 y := by
  unfold wrap64
  have h2 : (x + 9223372036854775808) % 18446744073709551616
      = (y + 9223372036854775808) % 18446744073709551616 := h.add_right 9223372036854775808
  rw [h2]

theorem wrap64_of_fits {x : Int} (h1 : -9223372036854775808 ≤ x) (h2 : x < 9223372036854775808) :
    wrap64 x = x := by
  unfold wrap64
  rw [Int.emod_eq_of_lt (by omega) (by omega)]
  omega

theorem wrap64_lower (x : Int) : -9223372036854775808 ≤ wrap64 x := by
  unfold wrap64
  have := Int.emod_nonneg (x + 9223372036854775808) (b := 18446744073709551616) (by norm_num)
  omega

theorem wrap64_upper (x : Int) : wrap64 x < 9223372036854775808 := by
  unfold wrap64
  have := Int.emod_lt_of_pos (x + 9223372036854775808) (b := 18446744073709551616) (by norm_num)
  omega

/-! ## Fast doubling -/

theorem and_two_pow_ne_zero (n j : Nat) : n &&& 2 ^ j ≠ 0 ↔ n / 2 ^ j % 2 = 1 := by
  have key : n &&& 2 ^ j = if n.testBit j then 2 ^ j else 0 := by
    apply Nat.eq_of_testBit_eq
    intro k
    by_cases hb : n.testBit j
    · by_cases hk : j = k
      · subst hk; simp [hb, Nat.testBit_two_pow]
      · simp [hb, Nat.testBit_two_pow, hk]
    · by_cases hk : j = k
      · subst hk; simp [hb, Nat.testBit_two_pow]
      · simp [hb, Nat.testBit_two_pow, hk]
  rw [key, Nat.testBit_to_div_mod]
  by_cases h : n / 2 ^ j % 2 = 1
  · simp [h]
  · simp [h]

theorem land_two_pow (n j : Nat) :
    Int.land (n : Int) ((2 ^ j : Nat) : Int) ≠ 0 ↔ n / 2 ^ j % 2 = 1 := by
  have h : Int.land (n : Int) ((2 ^ j : Nat) : Int) = ((n &&& 2 ^ j : Nat) : Int) := rfl
  rw [h, ← and_two_pow_ne_zero]
  exact Int.natCast_ne_zero

theorem fib_double (m : Nat) :
    (Nat.fib m : Int) * (2 * (Nat.fib (m + 1) : Int) - Nat.fib m) = (Nat.fib (2 * m) : Int) := by
  have h := Nat.fib_two_mul m
  have hle : Nat.fib m ≤ 2 * Nat.fib (m + 1) := by
    have := Nat.fib_le_fib_succ (n := m)
    omega
  rw [h]
  push_cast [Nat.cast_sub hle]
  ring

theorem fib_double_succ (m : Nat) :
    (Nat.fib m : Int) * Nat.fib m + (Nat.fib (m + 1) : Int) * Nat.fib (m + 1)
      = (Nat.fib (2 * m + 1) : Int) := by
  rw [Nat.fib_two_mul_add_one]
  push_cast
  ring

theorem fd_t1 (m : Nat) :
    wrap64 (wrap64 (Nat.fib m) * wrap64 (wrap64 (2 * wrap64 (Nat.fib (m + 1))) - wrap64 (Nat.fib m)))
      = wrap64 (Nat.fib (2 * m)) := by
  apply wrap64_congr
  rw [← fib_double]
  exact (wrap64_modEq _).mul ((wrap64_modEq _).trans
    (((wrap64_modEq _).trans ((Int.ModEq.refl 2).mul (wrap64_modEq _))).sub (wrap64_modEq _)))

theorem fd_t2 (m : Nat) :
    wrap64 (wrap64 (wrap64 (Nat.fib m) * wrap64 (Nat.fib m))
        + wrap64 (wrap64 (Nat.fib (m + 1)) * wrap64 (Nat.fib (m + 1))))
      = wrap64 (Nat.fib (2 * m + 1)) := by
  apply wrap64_congr
  rw [← fib_double_succ]
  exact ((wrap64_modEq _).trans ((wrap64_modEq _).mul (wrap64_modEq _))).add
    ((wrap64_modEq _).trans ((wrap64_modEq _).mul (wrap64_modEq _)))

theorem fd_t3 (m : Nat) :
    wrap64 (wrap64 (Nat.fib (2 * m)) + wrap64 (Nat.fib (2 * m + 1)))
      = wrap64 (Nat.fib (2 * m + 1 + 1)) := by
  apply wrap64_congr
  have h : (Nat.fib (2 * m + 1 + 1) : Int) = Nat.fib (2 * m) + Nat.fib (2 * m + 1) := by
    rw [Nat.fib_add_two]; push_cast; ring
  rw [h]
  exact (wrap64_modEq _).add (wrap64_modEq _)

theorem fd_step_fibPair (n j m : Nat) :
    fd_step (n : Int) (2 ^ j) (fibPair m) = fibPair (2 * m + n / 2 ^ j % 2) := by
  unfold fd_step fibPair
  simp only [fd_t1, fd_t2, fd_t3]
  by_cases hb : n / 2 ^ j % 2 = 1
  · rw [if_pos ((land_two_pow n j).mpr hb), hb]
  · rw [if_neg (fun h => hb ((land_two_pow n j).mp h))]
    have h0 : n / 2 ^ j % 2 = 0 := by omega
    rw [h0]; rfl

theorem fd_loop_fuel (n : Int) :
    ∀ (t k i : Nat) (s : Int × Int), i < 2 ^ t → fd_loop n (t + k) i s = fd_loop n t i s := by
  intro t
  induction t with
  | zero =>
    intro k i s hi
    have h0 : i = 0 := by simpa using hi
    subst h0
    cases k <;> simp [fd_loop]
  | succ t ih =>
    intro k i s hi
    have hk : t + 1 + k = (t + k) + 1 := by omega
    rw [hk, fd_loop, fd_loop]
    by_cases h0 : i = 0
    · simp [h0]
    · rw [if_neg h0, if_neg h0]
      apply ih
      rw [pow_succ] at hi
      omega

theorem fd_loop_fibPair_steps (n : Nat) :
    ∀ (t j m : Nat), t ≤ j + 1 →
      fd_loop (n : Int) t (2 ^ j) (fibPair m)
        = fibPair (m * 2 ^ t + n / 2 ^ (j + 1 - t) % 2 ^ t) := by
  intro t
  induction t with
  | zero =>
    intro j m _
    simp [fd_loop, Nat.mod_one]
  | succ t ih =>
    intro j m ht
    have hpos : (2 : Nat) ^ j ≠ 0 := by positivity
    rw [fd_loop, if_neg hpos, fd_step_fibPair]
    cases j with
    | zero =>
      have ht0 : t = 0 := by omega
      subst ht0
      simp [fd_loop, Nat.mul_comm]
    | succ j' =>
      have hhalf : (2 : Nat) ^ (j' + 1) / 2 = 2 ^ j' := by
        rw [pow_succ]; exact Nat.mul_div_cancel _ (by norm_num)
      rw [hhalf, ih j' _ (by omega)]
      congr 1
      have hsub : j' + 1 + 1 - (t + 1) = j' + 1 - t := by omega
      rw [hsub, Nat.mod_pow_succ (b := 2) (k := t), Nat.div_div_eq_div_mul, ← pow_add]
      have hexp : j' + 1 - t + t = j' + 1 := by omega
      rw [hexp]
      ring

theorem fibPair_zero : fibPair 0 = (0, 1) := by
  unfold fibPair
  rw [Nat.fib_zero, Nat.fib_one]
  rfl

theorem fd_loop_fibPair (n j : Nat) (hj : j < 32) (h : n < 2 ^ (j + 1)) :
    fd_loop (n : Int) 32 (2 ^ j) (0, 1) = fibPair n := by
  have hfuel := fd_loop_fuel (n : Int) (j + 1) (31 - j) (2 ^ j) (0, 1)
    (Nat.pow_lt_pow_right (by norm_num) (by omega))
  have h32 : j + 1 + (31 - j) = 32 := by omega
  rw [h32] at hfuel
  rw [hfuel, ← fibPair_zero, fd_loop_fibPair_steps n (j + 1) j 0 (le_refl _)]
  congr 1
  rw [Nat.sub_self, pow_zero, Nat.div_one, Nat.mod_eq_of_lt h]
  omega

theorem fast_doubling_wrap (n : Nat) (h : n < 2 ^ 32) :
    fast_doubling (n : Int) = wrap64 (Nat.fib n) := by
  unfold fast_doubling
  rw [fd_loop_fibPair n 31 (by norm_num) h]
  rfl

theorem builtin_clz_pos (n : Nat) (h1 : 1 ≤ n) : builtin_clz n = some (31 - Nat.log2 n) := by
  unfold builtin_clz
  rw [if_neg (by omega)]

theorem toU32_natCast (n : Nat) (h : n < 2 ^ 32) : ((n : Int) % 4294967296).toNat = n := by
  rw [Int.emod_eq_of_lt (by omega) (by exact_mod_cast h)]
  simp

theorem fast_doubling_clz_wrap (n : Nat) (h1 : 1 ≤ n) (h : n < 2 ^ 32) :
    fast_doubling_clz (n : Int) = some (wrap64 (Nat.fib n)) := by
  unfold fast_doubling_clz
  rw [toU32_natCast n h, builtin_clz_pos n h1]
  have hlog : Nat.log2 n < 32 := (Nat.log2_lt (by omega)).mpr h
  have hexp : 31 - (31 - Nat.log2 n) = Nat.log2 n := by omega
  simp only [hexp]
  rw [fd_loop_fibPair n (Nat.log2 n) hlog Nat.lt_log2_self]
  rfl

theorem fib_lt_two_pow (n : Nat) : Nat.fib n < 2 ^ n := by
  induction n using Nat.strong_induction_on with
  | _ n ih =>
    match n, ih with
    | 0, _ => simp
    | 1, _ => simp
    | n + 2, ih =>
      rw [Nat.fib_add_two]
      have h1 := ih n (by omega)
      have h2 := ih (n + 1) (by omega)
      rw [pow_succ] at h2 ⊢
      rw [pow_succ]
      omega

theorem fib_92 : Nat.fib 92 = 7540113804746346429 := by norm_num [Nat.fib_add_two]

theorem fib_le_92 (n : Nat) (h : n ≤ 92) : (Nat.fib n : Int) < 9223372036854775808 := by
  have h1 : Nat.fib n ≤ Nat.fib 92 := Nat.fib_mono h
  rw [fib_92] at h1
  have h2 : (Nat.fib n : Int) ≤ 7540113804746346429 := by exact_mod_cast h1
  omega

theorem wrap64_fib (n : Nat) (h : n ≤ 92) : wrap64 (Nat.fib n) = Nat.fib n :=
  wrap64_of_fits (by have : (0 : Int) ≤ Nat.fib n := Int.natCast_nonneg _; omega) (fib_le_92 n h)

/-! ## `fib_sequence` -/

theorem fib_sequence_loop_spec (K : Nat) (hK : K ≤ 92) :
    ∀ (d m fuel : Nat), m + 1 + d = K → d < fuel →
      fib_sequence_loop (K : Int) fuel ((m : Int) + 2) (Nat.fib m) (Nat.fib (m + 1)) true
        = some ((Nat.fib K : Int), true) := by
  intro d
  induction d with
  | zero =>
    intro m fuel hm hf
    obtain ⟨f, rfl⟩ : ∃ f, fuel = f + 1 := ⟨fuel - 1, by omega⟩
    have hnot : ¬ ((m : Int) + 2 ≤ (K : Int)) := by omega
    rw [fib_sequence_loop, if_neg hnot]
    have : m + 1 = K := by omega
    rw [this]
  | succ d ih =>
    intro m fuel hm hf
    obtain ⟨f, rfl⟩ : ∃ f, fuel = f + 1 := ⟨fuel - 1, by omega⟩
    have hle : (m : Int) + 2 ≤ (K : Int) := by omega
    have hmax : ¬ ((m : Int) + 2 = INT_MAX) := by unfold INT_MAX; omega
    rw [fib_sequence_loop, if_pos hle, if_neg hmax]
    have hsum : (Nat.fib m : Int) + Nat.fib (m + 1) = Nat.fib (m + 1 + 1) := by
      rw [Nat.fib_add_two]; push_cast; ring
    have hlt := fib_le_92 (m + 1 + 1) (by omega)
    have hnn : (0 : Int) ≤ Nat.fib (m + 1 + 1) := Int.natCast_nonneg _
    have hfit : fits64 ((Nat.fib m : Int) + Nat.fib (m + 1)) = true := by
      rw [hsum]; unfold fits64
      simp only [Bool.and_eq_true, decide_eq_true_eq]
      constructor <;> omega
    rw [hfit, hsum, wrap64_of_fits (by omega) hlt]
    have hidx : (m : Int) + 2 + 1 = ((m + 1 : Nat) : Int) + 2 := by push_cast; ring
    rw [hidx]
    exact ih (m + 1) f (by omega) (by omega)

theorem fib_sequence_run_spec (K : Nat) (hK : K ≤ 92) :
    fib_sequence_run (K : Int) = some ((Nat.fib K : Int), true) := by
  unfold fib_sequence_run
  by_cases h0 : K = 0
  · subst h0; simp
  · have hne : ¬ ((K : Int) = 0) := by omega
    rw [if_neg hne]
    have h := fib_sequence_loop_spec K hK (K - 1) 0 ((K : Int).toNat + 1) (by omega) (by
      simp only [Int.toNat_ofNat]; omega)
    simpa using h

/-- C7. For every `k` in `[0, 92]`, `fib_sequence(k)` returns `F(k)` exactly, and every
sum `a + b` formed on the way is representable in the signed 64-bit range (the ghost
flag of the run is `true`). -/
theorem fib_sequence_correct (k : Int) (h0 : 0 ≤ k) (h92 : k ≤ 92) :
    fib_sequence k = some (Nat.fib k.toNat : Int)
      ∧ (fib_sequence_run k).map Prod.snd = some true := by
  obtain ⟨K, rfl⟩ := Int.eq_ofNat_of_zero_le h0
  have hK : K ≤ 92 := by omega
  unfold fib_sequence
  rw [fib_sequence_run_spec K hK]
  simp

theorem fib_sequence_correct_witness :
    (0 : Int) ≤ 92 ∧ (92 : Int) ≤ 92
      ∧ fib_sequence 92 = some (Nat.fib (92 : Int).toNat : Int)
      ∧ (fib_sequence_run 92).map Prod.snd = some true :=
  ⟨by decide, by decide, fib_sequence_correct 92 (by decide) (by decide)⟩

/-! ## Claims on the fast-doubling variants -/

theorem fd_loop_bits_read (n t : Nat) (hn : n < 2 ^ 32) (ht : t ≤ 32) :
    fd_loop (n : Int) t (2 ^ 31) (0, 1) = fibPair (n / 2 ^ (32 - t)) := by
  rw [← fibPair_zero, fd_loop_fibPair_steps n t 31 0 (by omega)]
  congr 1
  have hlt : n / 2 ^ (31 + 1 - t) < 2 ^ t := by
    rw [Nat.div_lt_iff_lt_mul (by positivity), ← pow_add]
    have : t + (31 + 1 - t) = 32 := by omega
    rw [this]; exact hn
  rw [Nat.mod_eq_of_lt hlt]
  simp

/-- C6 (counterexample). At `n = 92` the last of the 32 steps leaves
`b = F(93) - 2^64 = -6246583658587674878`, which is not `F(93)`: the pair after that
step is not `(F(92), F(93))`. -/
theorem fast_doubling_pair_92 :
    (fd_loop 92 32 (2 ^ 31) (0, 1)).2 = -6246583658587674878
      ∧ (fd_loop 92 32 (2 ^ 31) (0, 1)).2 ≠ (Nat.fib (92 / 2 ^ (32 - 32) + 1) : Int) := by
  have hfib : Nat.fib (92 / 2 ^ (32 - 32) + 1) = 12200160415121876738 := by
    norm_num [Nat.fib_add_two]
  have hval : (fd_loop 92 32 (2 ^ 31) (0, 1)).2 = -6246583658587674878 := by
    have h := fd_loop_bits_read 92 32 (by norm_num) (le_refl _)
    have hcast : ((92 : Nat) : Int) = 92 := rfl
    rw [hcast] at h
    rw [h, fibPair, hfib]
    norm_num [wrap64]
  refine ⟨hval, ?_⟩
  rw [hval, hfib]
  norm_num

/-- C6 (amended). For every `n` in `[0, 92]`, `fast_doubling(n)` returns `F(n)`; after
`t` of the 32 steps, `m = n >> (32 - t)` being the bits of `n` read so far, `a = F(m)`,
`b` is `F(m+1)` reduced to 64 bits, and `b = F(m+1)` whenever `m < 92`. -/
theorem fast_doubling_correct (n : Nat) (h92 : n ≤ 92) :
    fast_doubling (n : Int) = (Nat.fib n : Int)
      ∧ ∀ t, t ≤ 32 →
          (fd_loop (n : Int) t (2 ^ 31) (0, 1)).1 = (Nat.fib (n / 2 ^ (32 - t)) : Int)
          ∧ (fd_loop (n : Int) t (2 ^ 31) (0, 1)).2
              = wrap64 (Nat.fib (n / 2 ^ (32 - t) + 1) : Int)
          ∧ (n / 2 ^ (32 - t) < 92 →
              (fd_loop (n : Int) t (2 ^ 31) (0, 1)).2
                = (Nat.fib (n / 2 ^ (32 - t) + 1) : Int)) := by
  have hn : n < 2 ^ 32 := by
    have : (92 : Nat) < 2 ^ 32 := by norm_num
    omega
  refine ⟨?_, ?_⟩
  · rw [fast_doubling_wrap n hn, wrap64_fib n h92]
  · intro t ht
    have hm : n / 2 ^ (32 - t) ≤ 92 := le_trans (Nat.div_le_self _ _) h92
    rw [fd_loop_bits_read n t hn ht]
    refine ⟨wrap64_fib _ hm, rfl, ?_⟩
    intro hlt
    exact wrap64_fib _ (by omega)

theorem fast_doubling_correct_witness :
    (92 : Nat) ≤ 92 ∧ fast_doubling ((92 : Nat) : Int) = (Nat.fib 92 : Int) :=
  ⟨le_refl _, (fast_doubling_correct 92 (le_refl _)).1⟩

/-- C8. For every `n` with `1 <= n < 2^32`, `fast_doubling_clz(n)` returns the value
`fast_doubling(n)` returns, 64-bit arithmetic wrapping modulo `2^64`. -/
theorem fast_doubling_clz_eq (n : Int) (h1 : 1 ≤ n) (h32 : n < 4294967296) :
    fast_doubling_clz n = some (fast_doubling n) := by
  obtain ⟨N, rfl⟩ := Int.eq_ofNat_of_zero_le (by omega : (0 : Int) ≤ n)
  have hN1 : 1 ≤ N := by omega
  have hN : N < 2 ^ 32 := by norm_num; omega
  rw [fast_doubling_clz_wrap N hN1 hN, fast_doubling_wrap N hN]

theorem fast_doubling_clz_eq_witness :
    (1 : Int) ≤ 93 ∧ (93 : Int) < 4294967296
      ∧ fast_doubling_clz 93 = some (fast_doubling 93) :=
  ⟨by decide, by decide, fast_doubling_clz_eq 93 (by decide) (by decide)⟩

/-- C9 (the code at the failing input). `fast_doubling_clz(0)` has no special case for
`0`: it evaluates `__builtin_clz(0)`, for which the compiler defines no result, so the
function has no defined result either. -/
theorem fast_doubling_clz_zero :
    builtin_clz ((0 : Int) % 4294967296).toNat = none ∧ fast_doubling_clz 0 = none := by
  constructor <;> decide

/-! ## `fib_device_lseek` -/

theorem wsum_succ (f : Nat → Nat) (m : Nat) : wsum f (m + 1) = wsum f m + f m * 2 ^ (32 * m) := by
  unfold wsum
  rw [List.range_succ, List.map_append, List.sum_append]
  simp

theorem wsum_congr {f g : Nat → Nat} (m : Nat) (h : ∀ i, i < m → f i = g i) :
    wsum f m = wsum g m := by
  induction m with
  | zero => rfl
  | succ m ih =>
    rw [wsum_succ, wsum_succ, ih (fun i hi => h i (by omega)), h m (by omega)]

theorem magnitude_eq_wsum (n : BigN) : magnitude n = wsum (fun i => n.val.getD i 0) n.size := rfl

theorem wsum_limbAt_of_le (n : BigN) : ∀ m, n.size ≤ m → wsum (limbAt n) m = magnitude n := by
  intro m
  induction m with
  | zero =>
    intro h
    have h0 : n.size = 0 := by omega
    rw [magnitude_eq_wsum, h0]
    rfl
  | succ m ih =>
    intro h
    by_cases hm : n.size ≤ m
    · rw [wsum_succ, ih hm]
      have : limbAt n m = 0 := by unfold limbAt; rw [if_neg (by omega)]
      rw [this]; simp
    · have hsz : n.size = m + 1 := by omega
      rw [magnitude_eq_wsum, hsz]
      apply wsum_congr
      intro i hi
      unfold limbAt
      rw [if_pos (by omega)]

theorem limbAt_lt (n : BigN) (h : ∀ x ∈ n.val, x < 2 ^ 32) (i : Nat) : limbAt n i < 2 ^ 32 := by
  unfold limbAt
  split_ifs with hi
  · by_cases hlen : i < n.val.length
    · rw [List.getD_eq_getElem _ _ hlen]
      exact h _ (List.getElem_mem _)
    · rw [List.getD_eq_default _ _ (by omega)]
      positivity
  · positivity

theorem carryAt_le_one (a b : BigN) (i : Nat) : carryAt a b i ≤ 1 := by
  cases i with
  | zero => simp [carryAt]
  | succ i => unfold carryAt; split_ifs <;> omega

theorem and_UINT_MAX (s : Nat) : s &&& UINT_MAX = s % 2 ^ 32 := by
  have h : UINT_MAX = 2 ^ 32 - 1 := by unfold UINT_MAX; norm_num
  rw [h, Nat.and_pow_two_sub_one_eq_mod]

theorem sumLimb_lt (a b : BigN) (i : Nat) : sumLimb a b i < 2 ^ 32 := by
  unfold sumLimb
  rw [and_UINT_MAX]
  exact Nat.mod_lt _ (by positivity)

theorem wsum_sumLimb (a b : BigN) (ha : ∀ x ∈ a.val, x < 2 ^ 32) (hb : ∀ x ∈ b.val, x < 2 ^ 32) :
    ∀ m, wsum (sumLimb a b) m + carryAt a b m * 2 ^ (32 * m)
      = wsum (limbAt a) m + wsum (limbAt b) m := by
  intro m
  induction m with
  | zero => simp [wsum, carryAt]
  | succ m ih =>
    rw [wsum_succ, wsum_succ, wsum_succ]
    have h1 := limbAt_lt a ha m
    have h2 := limbAt_lt b hb m
    have h3 := carryAt_le_one a b m
    have hstep : sumLimb a b m + carryAt a b (m + 1) * 2 ^ 32
        = limbAt a m + limbAt b m + carryAt a b m := by
      unfold sumLimb
      rw [and_UINT_MAX]
      conv_lhs => rw [carryAt]
      unfold UINT_MAX
      norm_num at h1 h2 ⊢
      split_ifs <;> omega
    have hpow : (2 : Nat) ^ (32 * (m + 1)) = 2 ^ 32 * 2 ^ (32 * m) := by
      rw [← pow_add]; congr 1; ring
    rw [hpow]
    have : sumLimb a b m * 2 ^ (32 * m) + carryAt a b (m + 1) * (2 ^ 32 * 2 ^ (32 * m))
        = (limbAt a m + limbAt b m + carryAt a b m) * 2 ^ (32 * m) := by
      rw [← hstep]; ring
    have hmul : (limbAt a m + limbAt b m + carryAt a b m) * 2 ^ (32 * m)
        = limbAt a m * 2 ^ (32 * m) + limbAt b m * 2 ^ (32 * m)
          + carryAt a b m * 2 ^ (32 * m) := by ring
    omega

theorem BigN_add_loop_length (a b : BigN) :
    ∀ (r i c : Nat) (sv : List Nat), (BigN_add_loop a b r i c sv).length = sv.length := by
  intro r
  induction r with
  | zero => intro i c sv; rfl
  | succ r ih =>
    intro i c sv
    rw [BigN_add_loop, ih, List.length_set]

theorem BigN_add_loop_getD (a b : BigN) :
    ∀ (r i : Nat) (sv : List Nat), i + r ≤ sv.length → ∀ j,
      (BigN_add_loop a b r i (carryAt a b i) sv).getD j 0
        = if i ≤ j ∧ j < i + r then sumLimb a b j else sv.getD j 0 := by
  intro r
  induction r with
  | zero =>
    intro i sv _ j
    rw [BigN_add_loop, if_neg (by omega)]
  | succ r ih =>
    intro i sv hlen j
    rw [BigN_add_loop]
    change (BigN_add_loop a b r (i + 1) (carryAt a b (i + 1))
      (sv.set i (sumLimb a b i))).getD j 0 = _
    rw [ih (i + 1) _ (by rw [List.length_set]; omega) j]
    by_cases hj : i = j
    · subst hj
      have h1 : ¬ (i + 1 ≤ i ∧ i < i + 1 + r) := by omega
      have h2 : i ≤ i ∧ i < i + (r + 1) := by omega
      rw [if_neg h1, if_pos h2, List.getD_eq_getElem?_getD,
        List.getElem?_set_self (by omega)]
      rfl
    · rw [List.getD_eq_getElem?_getD, List.getElem?_set_ne hj, ← List.getD_eq_getElem?_getD]
      by_cases h1 : i + 1 ≤ j ∧ j < i + 1 + r
      · rw [if_pos h1, if_pos (by omega)]
      · rw [if_neg h1, if_neg (by omega)]

theorem max_ite (x y : Nat) : (if x > y then x else y) = max x y := by
  split_ifs <;> omega

theorem sumLimb_top (a b : BigN) (m : Nat) (ha : a.size ≤ m) (hb : b.size ≤ m) :
    sumLimb a b m = carryAt a b m := by
  unfold sumLimb
  have h1 : limbAt a m = 0 := by unfold limbAt; rw [if_neg (by omega)]
  have h2 : limbAt b m = 0 := by unfold limbAt; rw [if_neg (by omega)]
  rw [h1, h2, and_UINT_MAX]
  have := carryAt_le_one a b m
  have h32 : (1 : Nat) < 2 ^ 32 := by norm_num
  have hlt : carryAt a b m < 2 ^ 32 := by omega
  simpa using Nat.mod_eq_of_lt hlt

theorem BigN_add_val_getD (a b : BigN) (h : max a.size b.size + 1 < 4294967296) (j : Nat) :
    (BigN_add a b).val.getD j 0
      = if j < max a.size b.size + 1 then sumLimb a b j else 0 := by
  have hv : (BigN_add a b).val
      = BigN_add_loop a b (max a.size b.size + 1) 0 (carryAt a b 0)
          (List.replicate (max a.size b.size + 1) 0) := by
    unfold BigN_add BigN_new
    simp only [max_ite, Nat.mod_eq_of_lt h]
    split_ifs <;> rfl
  rw [hv, BigN_add_loop_getD a b _ 0 _ (by simp) j]
  by_cases hj : j < max a.size b.size + 1
  · rw [if_pos hj, if_pos (by omega)]
  · rw [if_neg hj, if_neg (by omega)]
    rw [List.getD_eq_default _ _ (by simp; omega)]

theorem BigN_add_val_length (a b : BigN) (h : max a.size b.size + 1 < 4294967296) :
    (BigN_add a b).val.length = max a.size b.size + 1 := by
  have hv : (BigN_add a b).val
      = BigN_add_loop a b (max a.size b.size + 1) 0 (carryAt a b 0)
          (List.replicate (max a.size b.size + 1) 0) := by
    unfold BigN_add BigN_new
    simp only [max_ite, Nat.mod_eq_of_lt h]
    split_ifs <;> rfl
  rw [hv, BigN_add_loop_length]
  simp

theorem BigN_add_size (a b : BigN) (h : max a.size b.size + 1 < 4294967296) :
    (BigN_add a b).size
      = if carryAt a b (max a.size b.size) = 0 then max a.size b.size
        else max a.size b.size + 1 := by
  have htop := BigN_add_val_getD a b h (max a.size b.size)
  rw [if_pos (by omega), sumLimb_top a b _ (le_max_left _ _) (le_max_right _ _)] at htop
  have hv : (BigN_add a b).val
      = BigN_add_loop a b (max a.size b.size + 1) 0 0
          (List.replicate (max a.size b.size + 1) 0) := by
    unfold BigN_add BigN_new
    simp only [max_ite, Nat.mod_eq_of_lt h]
    split_ifs <;> rfl
  rw [hv] at htop
  unfold BigN_add BigN_new
  simp only [max_ite, Nat.mod_eq_of_lt h, Nat.add_sub_cancel, htop]
  split_ifs <;> rfl

theorem BigN_add_sign (a b : BigN) : (BigN_add a b).sign = 0 := by
  unfold BigN_add BigN_new
  simp only
  split_ifs <;> rfl

theorem BigN_add_magnitude (a b : BigN) (ha : ∀ x ∈ a.val, x < 2 ^ 32)
    (hb : ∀ x ∈ b.val, x < 2 ^ 32) (h : max a.size b.size + 1 < 4294967296) :
    magnitude (BigN_add a b) = magnitude a + magnitude b := by
  have hsum := wsum_sumLimb a b ha hb (max a.size b.size)
  rw [wsum_limbAt_of_le a _ (le_max_left _ _), wsum_limbAt_of_le b _ (le_max_right _ _)] at hsum
  rw [← hsum, magnitude_eq_wsum, BigN_add_size a b h]
  by_cases hc : carryAt a b (max a.size b.size) = 0
  · rw [if_pos hc, hc, Nat.zero_mul, Nat.add_zero]
    apply wsum_congr
    intro i hi
    rw [BigN_add_val_getD a b h i, if_pos (by omega)]
  · rw [if_neg hc, wsum_succ]
    rw [BigN_add_val_getD a b h (max a.size b.size), if_pos (by omega),
      sumLimb_top a b _ (le_max_left _ _) (le_max_right _ _)]
    congr 1
    apply wsum_congr
    intro i hi
    rw [BigN_add_val_getD a b h i, if_pos (by omega)]

theorem wf_size_lt (n : BigN) (h : n.wf) : n.size < 201326592 := by
  have h3 := h.2.2
  norm_num at h3
  omega

/-- C3. For `BigN` values `a` and `b` with at least one limb, the magnitude of
`BigN_add(a, b)` is exactly `magnitude(a) + magnitude(b)`: no carry is lost.  (The
operands are values of the model: `BigN_add` writes only to the fresh `sum`.) -/
theorem BigN_add_correct (a b : BigN) (ha : a.wf) (hb : b.wf) (ha1 : 1 ≤ a.size)
    (hb1 : 1 ≤ b.size) :
    magnitude (BigN_add a b) = magnitude a + magnitude b := by
  have h1 := wf_size_lt a ha
  have h2 := wf_size_lt b hb
  exact BigN_add_magnitude a b ha.2.1 hb.2.1 (by omega)

theorem BigN_add_correct_witness :
    BigN.wf ⟨[4294967295, 7], 2, 0⟩ ∧ BigN.wf ⟨[1], 1, 0⟩
      ∧ 1 ≤ (BigN.mk [4294967295, 7] 2 0).size ∧ 1 ≤ (BigN.mk [1] 1 0).size
      ∧ magnitude (BigN_add ⟨[4294967295, 7], 2, 0⟩ ⟨[1], 1, 0⟩)
          = magnitude ⟨[4294967295, 7], 2, 0⟩ + magnitude ⟨[1], 1, 0⟩ :=
  ⟨by decide, by decide, by decide, by decide,
    BigN_add_correct ⟨[4294967295, 7], 2, 0⟩ ⟨[1], 1, 0⟩ (by decide) (by decide) (by decide)
      (by decide)⟩

theorem BigN_add_limbs (a b : BigN) (h : max a.size b.size + 1 < 4294967296) :
    ∀ x ∈ (BigN_add a b).val, x < 2 ^ 32 := by
  intro x hx
  obtain ⟨j, hj, rfl⟩ := List.getElem_of_mem hx
  have hg := BigN_add_val_getD a b h j
  rw [List.getD_eq_getElem _ _ hj] at hg
  rw [hg]
  split_ifs
  · exact sumLimb_lt a b j
  · positivity

theorem limbAt_top_ne_zero (n : BigN) (hn : n.normalized) (h2 : 2 ≤ n.size) :
    limbAt n (n.size - 1) ≠ 0 := by
  unfold limbAt
  rw [if_pos (by omega)]
  rcases hn.2 with h | h
  · omega
  · exact h

theorem BigN_add_normalized (a b : BigN) (h : max a.size b.size + 1 < 4294967296)
    (ha : a.normalized) (hb : b.normalized) : (BigN_add a b).normalized := by
  have ha1 := ha.1
  have hb1 := hb.1
  unfold BigN.normalized
  rw [BigN_add_size a b h]
  by_cases hc : carryAt a b (max a.size b.size) = 0
  · rw [if_pos hc]
    refine ⟨le_trans ha1 (le_max_left _ _), ?_⟩
    by_cases hm : max a.size b.size = 1
    · exact Or.inl hm
    · right
      have hm2 : 2 ≤ max a.size b.size := by
        have := le_max_left a.size b.size
        omega
      rw [BigN_add_val_getD a b h, if_pos (by omega)]
      obtain ⟨m, hm'⟩ : ∃ m, max a.size b.size = m + 1 := ⟨max a.size b.size - 1, by omega⟩
      rw [hm'] at hc ⊢
      rw [Nat.add_sub_cancel]
      rw [carryAt] at hc
      have hle : limbAt a m + limbAt b m + carryAt a b m ≤ UINT_MAX := by
        by_contra hgt
        rw [if_pos (by omega)] at hc
        exact absurd hc (by norm_num)
      unfold sumLimb
      rw [and_UINT_MAX, Nat.mod_eq_of_lt (by unfold UINT_MAX at hle; norm_num; omega)]
      have hne : limbAt a m ≠ 0 ∨ limbAt b m ≠ 0 := by
        rcases le_total a.size b.size with hab | hab
        · right
          have hbs : b.size = m + 1 := by rw [max_eq_right hab] at hm'; exact hm'
          have := limbAt_top_ne_zero b hb (by omega)
          rwa [hbs, Nat.add_sub_cancel] at this
        · left
          have has : a.size = m + 1 := by rw [max_eq_left hab] at hm'; exact hm'
          have := limbAt_top_ne_zero a ha (by omega)
          rwa [has, Nat.add_sub_cancel] at this
      omega
  · rw [if_neg hc]
    refine ⟨by omega, Or.inr ?_⟩
    rw [Nat.add_sub_cancel, BigN_add_val_getD a b h, if_pos (by omega),
      sumLimb_top a b _ (le_max_left _ _) (le_max_right _ _)]
    exact hc

theorem BigN_add_good (a b : BigN) (h : max a.size b.size + 1 < 4294967296)
    (ha : a.good) (hb : b.good) : (BigN_add a b).good := by
  refine ⟨?_, BigN_add_limbs a b h, BigN_add_normalized a b h ha.2.2 hb.2.2⟩
  rw [BigN_add_val_length a b h, BigN_add_size a b h]
  split_ifs <;> omega

theorem good_size_bound (n : BigN) (hn : n.good) (k : Nat) (hk : magnitude n < 2 ^ k) :
    n.size ≤ k / 32 + 1 := by
  by_contra hlt
  have h2 : 2 ≤ n.size := by omega
  have htop := limbAt_top_ne_zero n hn.2.2 h2
  obtain ⟨m, hm⟩ : ∃ m, n.size = m + 1 := ⟨n.size - 1, by omega⟩
  have hmag : magnitude n = wsum (limbAt n) (m + 1) := by
    rw [wsum_limbAt_of_le n (m + 1) (by omega)]
  rw [hm, Nat.add_sub_cancel] at htop
  rw [wsum_succ] at hmag
  have hge : 2 ^ (32 * m) ≤ magnitude n := by
    rw [hmag]
    calc 2 ^ (32 * m) = 1 * 2 ^ (32 * m) := by ring
      _ ≤ limbAt n m * 2 ^ (32 * m) := Nat.mul_le_mul_right _ (by omega)
      _ ≤ _ := Nat.le_add_left _ _
  have hpow : 2 ^ (32 * m) < 2 ^ k := lt_of_le_of_lt hge hk
  have hexp : 32 * m < k := (Nat.pow_lt_pow_iff_right (by norm_num)).mp hpow
  omega

/-! ## `fib_sequence_BigN` -/

theorem fib_sequence_BigN_loop_spec (K : Nat) (hK : K < 2147483647) :
    ∀ (d m fuel : Nat) (a b : BigN), m + 1 + d = K → d < fuel → a.good → b.good →
      magnitude a = Nat.fib m → magnitude b = Nat.fib (m + 1) →
      ∃ r, fib_sequence_BigN_loop (K : Int) fuel ((m : Int) + 2) a b = some r
        ∧ magnitude r = Nat.fib K ∧ r.good := by
  intro d
  induction d with
  | zero =>
    intro m fuel a b hm hf _ hb _ hmb
    obtain ⟨f, rfl⟩ : ∃ f, fuel = f + 1 := ⟨fuel - 1, by omega⟩
    have hnot : ¬ ((m : Int) + 2 ≤ (K : Int)) := by omega
    rw [fib_sequence_BigN_loop, if_neg hnot]
    have : m + 1 = K := by omega
    exact ⟨b, rfl, by rw [hmb, this], hb⟩
  | succ d ih =>
    intro m fuel a b hm hf ha hb hma hmb
    obtain ⟨f, rfl⟩ : ∃ f, fuel = f + 1 := ⟨fuel - 1, by omega⟩
    have hle : (m : Int) + 2 ≤ (K : Int) := by omega
    have hmax : ¬ ((m : Int) + 2 = INT_MAX) := by unfold INT_MAX; omega
    rw [fib_sequence_BigN_loop, if_pos hle, if_neg hmax]
    have hsa := good_size_bound a ha m (by rw [hma]; exact fib_lt_two_pow m)
    have hsb := good_size_bound b hb (m + 1) (by rw [hmb]; exact fib_lt_two_pow (m + 1))
    have hsize : max a.size b.size + 1 < 4294967296 := by
      have : max a.size b.size ≤ (m + 1) / 32 + 1 := max_le (by omega) hsb
      omega
    have hidx : (m : Int) + 2 + 1 = ((m + 1 : Nat) : Int) + 2 := by push_cast; ring
    rw [hidx]
    refine ih (m + 1) f b (BigN_add a b) (by omega) (by omega) hb
      (BigN_add_good a b hsize ha hb) hmb ?_
    rw [BigN_add_magnitude a b ha.2.1 hb.2.1 hsize, hma, hmb, Nat.fib_add_two]

theorem fib_sequence_BigN_spec (K : Nat) (hK : K < 2147483647) :
    ∃ r, fib_sequence_BigN (K : Int) = some r ∧ magnitude r = Nat.fib K ∧ r.good := by
  unfold fib_sequence_BigN
  by_cases h0 : K = 0
  · subst h0
    exact ⟨BigN_new 1, by simp, by decide, by decide⟩
  · have hne : ¬ ((K : Int) = 0) := by omega
    simp only [if_neg hne]
    have h := fib_sequence_BigN_loop_spec K hK (K - 1) 0 ((K : Int).toNat + 1)
      (BigN_new 1) { BigN_new 1 with val := (BigN_new 1).val.set 0 1 } (by omega)
      (by simp only [Int.toNat_ofNat]; omega) (by decide) (by decide) (by decide) (by decide)
    simpa using h

theorem fib_sequence_BigN_loop_none (k : Int) (hk : INT_MAX ≤ k) :
    ∀ (fuel : Nat) (i : Int) (a b : BigN), i ≤ INT_MAX →
      fib_sequence_BigN_loop k fuel i a b = none := by
  intro fuel
  induction fuel with
  | zero => intro i a b _; rfl
  | succ f ih =>
    intro i a b hi
    rw [fib_sequence_BigN_loop, if_pos (le_trans hi hk)]
    by_cases hmax : i = INT_MAX
    · rw [if_pos hmax]
    · rw [if_neg hmax]
      exact ih (i + 1) _ _ (by omega)

/-- C1 (counterexample). At `k = 2147483647` (`INT_MAX`) the `int` counter of the loop
can never exceed `k`: `fib_sequence_BigN` returns no `BigN`. -/
theorem fib_sequence_BigN_int_max : fib_sequence_BigN 2147483647 = none := by
  unfold fib_sequence_BigN
  simp only [if_neg (by decide : ¬ ((2147483647 : Int) = 0))]
  exact fib_sequence_BigN_loop_none 2147483647 (by decide) _ 2 _ _ (by decide)

/-- C1 (amended). For every index `k` with `0 <= k < 2147483647`, `fib_sequence_BigN(k)`
returns a `BigN` whose magnitude is the Fibonacci number `F(k)`. -/
theorem fib_sequence_BigN_correct (k : Int) (h0 : 0 ≤ k) (hk : k < 2147483647) :
    ∃ r, fib_sequence_BigN k = some r ∧ magnitude r = Nat.fib k.toNat := by
  obtain ⟨K, rfl⟩ := Int.eq_ofNat_of_zero_le h0
  obtain ⟨r, hr, hmag, _⟩ := fib_sequence_BigN_spec K (by omega)
  exact ⟨r, hr, by simpa using hmag⟩

theorem fib_sequence_BigN_correct_witness :
    ((0 : Int) ≤ 0 ∧ (0 : Int) < 2147483647
        ∧ ∃ r, fib_sequence_BigN 0 = some r ∧ magnitude r = Nat.fib (0 : Int).toNat)
      ∧ ((0 : Int) ≤ 1 ∧ (1 : Int) < 2147483647
        ∧ ∃ r, fib_sequence_BigN 1 = some r ∧ magnitude r = Nat.fib (1 : Int).toNat) :=
  ⟨⟨by decide, by decide, fib_sequence_BigN_correct 0 (by decide) (by decide)⟩,
    ⟨by decide, by decide, fib_sequence_BigN_correct 1 (by decide) (by decide)⟩⟩

/-! ## `BigN_to_string`: the conversion loops -/

theorem decVal_concat (s : List Nat) (x : Nat) : decVal (s ++ [x]) = 10 * decVal s + (x - 48) := by
  unfold decVal
  rw [List.foldl_append]
  rfl

theorem isDigits_concat (s : List Nat) (x : Nat) :
    isDigits (s ++ [x]) ↔ isDigits s ∧ 48 ≤ x ∧ x ≤ 57 := by
  unfold isDigits
  constructor
  · intro h
    exact ⟨fun c hc => h c (List.mem_append_left _ hc), h x (by simp)⟩
  · rintro ⟨h1, h2⟩ c hc
    rcases List.mem_append.mp hc with h | h
    · exact h1 c h
    · have : c = x := by simpa using h
      subst this; exact h2

theorem mul_add_mod_ten (A r M : Nat) (hr : r < 10) :
    (10 * A + r) % (10 * M) = 10 * (A % M) + r := by
  rcases Nat.eq_zero_or_pos M with h0 | hpos
  · subst h0; simp
  · have hsplit : 10 * A + r = 10 * (A % M) + r + (10 * M) * (A / M) := by
      have := Nat.div_add_mod A M
      nlinarith [Nat.div_add_mod A M]
    rw [hsplit, Nat.add_mul_mod_self_left]
    apply Nat.mod_eq_of_lt
    have := Nat.mod_lt A hpos
    omega

theorem BigN_to_string_digits_spec :
    ∀ (j c : Nat) (hi lo : List Nat), hi.length = j → isDigits hi → c ≤ 1 →
      ∃ hi2, BigN_to_string_digits j c (hi ++ lo) = hi2 ++ lo ∧ hi2.length = j
        ∧ isDigits hi2 ∧ decVal hi2 = (2 * decVal hi + c) % 10 ^ j := by
  intro j
  induction j with
  | zero =>
    intro c hi lo hlen _ hc
    have hnil : hi = [] := List.length_eq_zero.mp hlen
    subst hnil
    exact ⟨[], rfl, rfl, by intro c hc; simp at hc, by simp [decVal, Nat.mod_one]⟩
  | succ j ih =>
    intro c hi lo hlen hdig hc
    rcases List.eq_nil_or_concat hi with hnil | ⟨h0, x, hcat⟩
    · subst hnil; simp at hlen
    · rw [List.concat_eq_append] at hcat
      subst hcat
      have hlen0 : h0.length = j := by simpa using hlen
      obtain ⟨hd0, hx1, hx2⟩ := (isDigits_concat h0 x).mp hdig
      have hget : (h0 ++ [x] ++ lo).getD j 0 = x := by
        rw [List.append_assoc, List.getD_append_right _ _ _ _ (by omega)]
        simp [hlen0]
      have hset : ∀ y, (h0 ++ [x] ++ lo).set j y = h0 ++ (y :: lo) := by
        intro y
        rw [List.append_assoc, List.set_append_right _ _ (by omega)]
        simp [hlen0]
      rw [BigN_to_string_digits, hget, hset]
      obtain ⟨h1, hres, hlen1, hdig1, hval1⟩ := ih
        (if x + (x - 48) + c > 57 then 1 else 0) h0
        ((if (if x + (x - 48) + c > 57 then 1 else 0) ≠ 0 then x + (x - 48) + c - 10
          else x + (x - 48) + c) :: lo) hlen0 hd0 (by split_ifs <;> omega)
      refine ⟨h1 ++ [if (if x + (x - 48) + c > 57 then 1 else 0) ≠ 0 then x + (x - 48) + c - 10
          else x + (x - 48) + c], ?_, ?_, ?_, ?_⟩
      · rw [hres]; simp
      · simp [hlen1]
      · rw [isDigits_concat]
        refine ⟨hdig1, ?_⟩
        split_ifs <;> omega
      · rw [decVal_concat, decVal_concat, hval1, pow_succ, Nat.mul_comm (10 ^ j) 10]
        by_cases hbig : x + (x - 48) + c > 57
        · simp only [if_pos hbig]
          have e1 : 2 * (10 * decVal h0 + (x - 48)) + c
              = 10 * (2 * decVal h0 + 1) + (x + (x - 48) + c - 10 - 48) := by omega
          rw [e1, mul_add_mod_ten _ _ _ (by omega)]
          simp
        · simp only [if_neg hbig]
          have e1 : 2 * (10 * decVal h0 + (x - 48)) + c
              = 10 * (2 * decVal h0 + 0) + (x + (x - 48) + c - 48) := by omega
          rw [e1, mul_add_mod_ten _ _ _ (by omega)]
          simp

theorem decVal_lt (s : List Nat) (h : isDigits s) : decVal s < 10 ^ s.length := by
  induction s using List.reverseRecOn with
  | nil => simp [decVal]
  | append_singleton s x ih =>
    obtain ⟨hs, hx1, hx2⟩ := (isDigits_concat s x).mp h
    have := ih hs
    rw [decVal_concat, List.length_append, List.length_singleton, pow_succ]
    omega

theorem bit_carry (limb j : Nat) :
    (if (2 ^ j &&& limb) > 0 then 1 else 0) = limb / 2 ^ j % 2 := by
  rw [Nat.land_comm]
  by_cases h : limb / 2 ^ j % 2 = 1
  · have := (and_two_pow_ne_zero limb j).mpr h
    rw [if_pos (by omega), h]
  · have hz : limb &&& 2 ^ j = 0 := by
      by_contra hne
      exact h ((and_two_pow_ne_zero limb j).mp hne)
    rw [hz, if_neg (by omega)]
    omega

theorem mod_mul_add_mod (a b c M : Nat) : (a % M * b + c) % M = (a * b + c) % M := by
  conv_rhs => rw [Nat.add_mod, Nat.mul_mod]
  conv_lhs => rw [Nat.add_mod, Nat.mul_mod, Nat.mod_mod]

theorem BigN_to_string_bits_steps (limb D : Nat) (j0 : Int) (hD : (j0 + 1).toNat = D) :
    ∀ (t j : Nat) (hi lo : List Nat), t ≤ j + 1 → hi.length = D → isDigits hi →
      ∃ hi2, BigN_to_string_bits limb j0 t (2 ^ j) (hi ++ lo) = hi2 ++ lo ∧ hi2.length = D
        ∧ isDigits hi2
        ∧ decVal hi2 = (decVal hi * 2 ^ t + limb / 2 ^ (j + 1 - t) % 2 ^ t) % 10 ^ D := by
  intro t
  induction t with
  | zero =>
    intro j hi lo _ hlen hdig
    refine ⟨hi, rfl, hlen, hdig, ?_⟩
    have := decVal_lt hi hdig
    rw [hlen] at this
    simp [Nat.mod_one, Nat.mod_eq_of_lt this]
  | succ t ih =>
    intro j hi lo ht hlen hdig
    have hpos : (2 : Nat) ^ j ≠ 0 := by positivity
    rw [BigN_to_string_bits, if_neg hpos]
    simp only [bit_carry, hD]
    obtain ⟨h1, hres1, hlen1, hdig1, hval1⟩ :=
      BigN_to_string_digits_spec D (limb / 2 ^ j % 2) hi lo hlen hdig
        (by have := Nat.mod_lt (limb / 2 ^ j) (by norm_num : 0 < 2); omega)
    rw [hres1]
    cases j with
    | zero =>
      have ht0 : t = 0 := by omega
      subst ht0
      refine ⟨h1, rfl, hlen1, hdig1, ?_⟩
      rw [hval1]
      simp [Nat.mul_comm]
    | succ j' =>
      have hhalf : (2 : Nat) ^ (j' + 1) / 2 = 2 ^ j' := by
        rw [pow_succ]; exact Nat.mul_div_cancel _ (by norm_num)
      rw [hhalf]
      obtain ⟨h2, hres2, hlen2, hdig2, hval2⟩ := ih j' h1 lo (by omega) hlen1 hdig1
      refine ⟨h2, hres2, hlen2, hdig2, ?_⟩
      rw [hval2, hval1, mod_mul_add_mod]
      congr 1
      have hsub : j' + 1 + 1 - (t + 1) = j' + 1 - t := by omega
      rw [hsub, Nat.mod_pow_succ (b := 2) (k := t), Nat.div_div_eq_div_mul, ← pow_add]
      have hexp : j' + 1 - t + t = j' + 1 := by omega
      rw [hexp]
      ring

theorem BigN_to_string_bits_spec (limb D : Nat) (j0 : Int) (hD : (j0 + 1).toNat = D)
    (hlimb : limb < 2 ^ 32) (hi lo : List Nat) (hlen : hi.length = D) (hdig : isDigits hi) :
    ∃ hi2, BigN_to_string_bits limb j0 32 (2 ^ 31) (hi ++ lo) = hi2 ++ lo ∧ hi2.length = D
      ∧ isDigits hi2 ∧ decVal hi2 = (decVal hi * 2 ^ 32 + limb) % 10 ^ D := by
  obtain ⟨h2, hres, hlen2, hdig2, hval⟩ :=
    BigN_to_string_bits_steps limb D j0 hD 32 31 hi lo (by norm_num) hlen hdig
  refine ⟨h2, hres, hlen2, hdig2, ?_⟩
  rw [hval]
  have : limb / 2 ^ (31 + 1 - 32) % 2 ^ 32 = limb := by
    rw [show 31 + 1 - 32 = 0 from rfl, pow_zero, Nat.div_one, Nat.mod_eq_of_lt hlimb]
  rw [this]

theorem BigN_to_string_limbs_spec (num : BigN) (D : Nat) (j0 : Int) (hD : (j0 + 1).toNat = D)
    (hlimbs : ∀ x ∈ num.val, x < 2 ^ 32) :
    ∀ (i : Nat) (hi lo : List Nat), hi.length = D → isDigits hi →
      ∃ hi2, BigN_to_string_limbs num j0 i (hi ++ lo) = hi2 ++ lo ∧ hi2.length = D
        ∧ isDigits hi2
        ∧ decVal hi2
            = (decVal hi * 2 ^ (32 * i) + wsum (fun i => num.val.getD i 0) i) % 10 ^ D := by
  intro i
  induction i with
  | zero =>
    intro hi lo hlen hdig
    refine ⟨hi, rfl, hlen, hdig, ?_⟩
    have := decVal_lt hi hdig
    rw [hlen] at this
    simp [wsum, Nat.mod_eq_of_lt this]
  | succ i ih =>
    intro hi lo hlen hdig
    rw [BigN_to_string_limbs]
    have hlimb : num.val.getD i 0 < 2 ^ 32 := by
      by_cases hlt : i < num.val.length
      · rw [List.getD_eq_getElem _ _ hlt]
        exact hlimbs _ (List.getElem_mem _)
      · rw [List.getD_eq_default _ _ (by omega)]
        positivity
    obtain ⟨h1, hres1, hlen1, hdig1, hval1⟩ :=
      BigN_to_string_bits_spec (num.val.getD i 0) D j0 hD hlimb hi lo hlen hdig
    rw [hres1]
    obtain ⟨h2, hres2, hlen2, hdig2, hval2⟩ := ih h1 lo hlen1 hdig1
    refine ⟨h2, hres2, hlen2, hdig2, ?_⟩
    rw [hval2, hval1, mod_mul_add_mod, wsum_succ]
    have hpow : (2 : Nat) ^ (32 * (i + 1)) = 2 ^ 32 * 2 ^ (32 * i) := by
      rw [← pow_add, Nat.mul_succ, Nat.add_comm]
    have hnum : (decVal hi * 2 ^ 32 + num.val.getD i 0) * 2 ^ (32 * i)
          + wsum (fun i => num.val.getD i 0) i
        = decVal hi * 2 ^ (32 * (i + 1))
          + (wsum (fun i => num.val.getD i 0) i + num.val.getD i 0 * 2 ^ (32 * i)) := by
      rw [hpow, Nat.add_mul, Nat.mul_assoc]
      omega
    rw [hnum]

theorem wsum_lt (f : Nat → Nat) (hf : ∀ i, f i < 2 ^ 32) : ∀ m, wsum f m < 2 ^ (32 * m) := by
  intro m
  induction m with
  | zero => simp [wsum]
  | succ m ih =>
    rw [wsum_succ]
    have hpow : (2 : Nat) ^ (32 * (m + 1)) = 2 ^ 32 * 2 ^ (32 * m) := by
      rw [← pow_add, Nat.mul_succ, Nat.add_comm]
    rw [hpow]
    have h1 : f m * 2 ^ (32 * m) ≤ (2 ^ 32 - 1) * 2 ^ (32 * m) :=
      Nat.mul_le_mul_right _ (by have := hf m; omega)
    have h2 : (2 ^ 32 - 1) * 2 ^ (32 * m) + 2 ^ (32 * m) = 2 ^ 32 * 2 ^ (32 * m) := by
      rw [Nat.sub_mul, Nat.one_mul]
      have : 2 ^ (32 * m) ≤ 2 ^ 32 * 2 ^ (32 * m) := Nat.le_mul_of_pos_left _ (by positivity)
      omega
    omega

theorem magnitude_lt (n : BigN) (h : ∀ x ∈ n.val, x < 2 ^ 32) :
    magnitude n < 2 ^ (32 * n.size) := by
  rw [magnitude_eq_wsum]
  apply wsum_lt
  intro i
  by_cases hlt : i < n.val.length
  · rw [List.getD_eq_getElem _ _ hlt]
    exact h _ (List.getElem_mem _)
  · rw [List.getD_eq_default _ _ (by omega)]
    positivity

theorem two_pow_lt_ten_pow (e : Nat) : 2 ^ e < 10 ^ (e / 3 + 1) := by
  have h8 : ∀ q : Nat, (8 : Nat) ^ q ≤ 10 ^ q := fun q => Nat.pow_le_pow_left (by norm_num) q
  have hsplit : e = 3 * (e / 3) + e % 3 := (Nat.div_add_mod e 3).symm
  have hr : e % 3 < 3 := Nat.mod_lt _ (by norm_num)
  have hpow : (2 : Nat) ^ e = 8 ^ (e / 3) * 2 ^ (e % 3) := by
    conv_lhs => rw [hsplit, pow_add, pow_mul]
    norm_num
  have h4 : (2 : Nat) ^ (e % 3) ≤ 4 := by
    have : (2 : Nat) ^ (e % 3) ≤ 2 ^ 2 := Nat.pow_le_pow_right (by norm_num) (by omega)
    simpa using this
  rw [hpow, pow_succ]
  calc 8 ^ (e / 3) * 2 ^ (e % 3) ≤ 10 ^ (e / 3) * 4 := Nat.mul_le_mul (h8 _) h4
    _ < 10 ^ (e / 3) * 10 := Nat.mul_lt_mul_of_pos_left (by norm_num) (by positivity)

theorem BigN_to_string_skip_spec (s : List Nat) (t : Nat) :
    ∀ (fuel p : Nat), p ≤ t → t - p < fuel + 1 →
      (∀ q, p ≤ q → q < t → s.getD q 0 = 48 ∧ s.getD (q + 1) 0 ≠ 0) →
      ¬ (s.getD t 0 = 48 ∧ s.getD (t + 1) 0 ≠ 0) →
      BigN_to_string_skip s fuel p = t := by
  intro fuel
  induction fuel with
  | zero =>
    intro p hp hf _ _
    rw [BigN_to_string_skip]
    omega
  | succ f ih =>
    intro p hp hf hgo hstop
    rw [BigN_to_string_skip]
    by_cases hpt : p = t
    · subst hpt
      rw [if_neg hstop]
    · rw [if_pos (hgo p (le_refl _) (by omega))]
      exact ih (p + 1) (by omega) (by omega) (fun q h1 h2 => hgo q (by omega) h2) hstop

theorem takeWhile_ne_zero (l r : List Nat) (h : ∀ x ∈ l, x ≠ 0) :
    (l ++ 0 :: r).takeWhile (fun c => c ≠ 0) = l := by
  induction l with
  | nil => simp
  | cons x l ih =>
    have hx : x ≠ 0 := h x (by simp)
    simp only [List.cons_append]
    rw [List.takeWhile_cons_of_pos (by simpa using hx), ih (fun y hy => h y (by simp [hy]))]

theorem memmove_numeral (s : List Nat) (p : Nat) (l : List Nat) (h : ∀ x ∈ l, x ≠ 0)
    (hdrop : s.drop p = l ++ [0]) :
    ∃ rest, memmove s p (strlen (s.drop p) + 1) = l ++ 0 :: rest := by
  refine ⟨s.drop (l.length + 1), ?_⟩
  unfold memmove strlen
  rw [hdrop, takeWhile_ne_zero l [] h]
  rw [List.take_of_length_le (by simp)]
  simp

/-! ## `BigN_to_string`: trimming and the numeral -/

theorem decVal_foldl (s : List Nat) (a : Nat) :
    s.foldl (fun acc c => 10 * acc + (c - 48)) a = a * 10 ^ s.length + decVal s := by
  induction s using List.reverseRecOn with
  | nil => simp [decVal]
  | append_singleton s x ih =>
    rw [decVal_concat, List.foldl_append, ih, List.length_append, List.length_singleton, pow_succ]
    simp only [List.foldl_cons, List.foldl_nil]
    ring

theorem decVal_cons (c : Nat) (r : List Nat) :
    decVal (c :: r) = (c - 48) * 10 ^ r.length + decVal r := by
  have h := decVal_foldl r (10 * 0 + (c - 48))
  simp only [Nat.mul_zero, Nat.zero_add] at h
  rw [← h]
  simp [decVal]

theorem decVal_zeros_append (z : Nat) (tl : List Nat) :
    decVal (List.replicate z 48 ++ tl) = decVal tl := by
  induction z with
  | zero => simp
  | succ z ih =>
    rw [List.replicate_succ, List.cons_append, decVal_cons, ih]
    simp

theorem decVal_ofDigits (s : List Nat) :
    decVal s = Nat.ofDigits 10 ((s.map (fun c => c - 48)).reverse) := by
  induction s using List.reverseRecOn with
  | nil => simp [decVal]
  | append_singleton s x ih =>
    rw [decVal_concat, ih, List.map_append, List.reverse_append]
    simp only [List.map_cons, List.map_nil, List.reverse_cons, List.reverse_nil, List.nil_append,
      List.singleton_append, Nat.ofDigits_cons]
    omega

theorem split_zeros (s : List Nat) :
    ∃ z tl, s = List.replicate z 48 ++ tl ∧ (tl = [] ∨ ∃ c r, tl = c :: r ∧ c ≠ 48) := by
  induction s with
  | nil => exact ⟨0, [], rfl, Or.inl rfl⟩
  | cons x s ih =>
    by_cases hx : x = 48
    · obtain ⟨z, tl, hs, htl⟩ := ih
      refine ⟨z + 1, tl, ?_, htl⟩
      rw [hs, hx, List.replicate_succ, List.cons_append]
    · exact ⟨0, x :: s, rfl, Or.inr ⟨x, s, rfl, hx⟩⟩

theorem decimal_of_digits (c : Nat) (r : List Nat) (hd : isDigits (c :: r)) (hc : c ≠ 48) :
    decimal (decVal (c :: r)) = c :: r := by
  have hc1 : 48 ≤ c ∧ c ≤ 57 := hd c (by simp)
  have hL1 : ∀ l ∈ ((c :: r).map (fun c => c - 48)).reverse, l < 10 := by
    intro l hl
    rw [List.mem_reverse, List.mem_map] at hl
    obtain ⟨y, hy, rfl⟩ := hl
    have := hd y hy
    omega
  have hL2 : ∀ h : ((c :: r).map (fun c => c - 48)).reverse ≠ [],
      (((c :: r).map (fun c => c - 48)).reverse).getLast h ≠ 0 := by
    intro h
    rw [List.getLast_reverse]
    simp only [List.map_cons, List.head_cons]
    omega
  have hdig := Nat.digits_ofDigits 10 (by norm_num) _ hL1 hL2
  rw [← decVal_ofDigits] at hdig
  have hne : decVal (c :: r) ≠ 0 := by
    intro h0
    rw [h0] at hdig
    simp at hdig
  unfold decimal
  rw [if_neg hne, hdig, List.reverse_reverse, List.map_map]
  have hid : ∀ y ∈ (c :: r), ((fun d => d + 48) ∘ fun c => c - 48) y = id y := by
    intro y hy
    have := hd y hy
    simp only [Function.comp, id]
    omega
  rw [List.map_congr_left hid, List.map_id]

theorem digits_ne_zero (l : List Nat) (h : isDigits l) : ∀ x ∈ l, x ≠ 0 := by
  intro x hx
  have := h x hx
  omega

theorem getD_zeros_lt (z q : Nat) (rest : List Nat) (h : q < z) :
    (List.replicate z 48 ++ rest).getD q 0 = 48 := by
  rw [List.getD_append _ _ _ _ (by simpa using h), List.getD_eq_getElem _ _ (by simpa using h)]
  simp

theorem getD_zeros_at (z c : Nat) (r : List Nat) :
    (List.replicate z 48 ++ c :: r).getD z 0 = c := by
  rw [List.getD_append_right _ _ _ _ (by simp)]
  simp

theorem drop_zeros (z : Nat) (rest : List Nat) : (List.replicate z 48 ++ rest).drop z = rest := by
  rw [List.drop_append_of_le_length (by simp)]
  simp

theorem set_drop (y : Nat) : ∀ (s : List Nat) (k : Nat), k < s.length →
    (s.set k y).drop k = y :: s.drop (k + 1) := by
  intro s
  induction s with
  | nil => intro k hk; simp at hk
  | cons x s ih =>
    intro k hk
    cases k with
    | zero => simp
    | succ k =>
      simp only [List.set_cons_succ, List.drop_succ_cons]
      exact ih k (by simpa using hk)

theorem trim_spec (hi2 : List Nat) (hd : isDigits hi2) (hlen : 1 ≤ hi2.length) :
    (hi2 ++ [0]).drop (BigN_to_string_skip (hi2 ++ [0]) (hi2 ++ [0]).length 0)
        = decimal (decVal hi2) ++ [0]
      ∧ BigN_to_string_skip (hi2 ++ [0]) (hi2 ++ [0]).length 0 < hi2.length
      ∧ (decVal hi2 < 10 ^ (hi2.length - 1) → 2 ≤ hi2.length →
          1 ≤ BigN_to_string_skip (hi2 ++ [0]) (hi2 ++ [0]).length 0) := by
  obtain ⟨z, tl, hs, htl⟩ := split_zeros hi2
  have hfuel : (hi2 ++ [0]).length = hi2.length + 1 := by simp
  rw [hfuel]
  rcases htl with hnil | ⟨c, r, hcr, hc⟩
  · subst hnil
    rw [List.append_nil] at hs
    have hz : hi2.length = z := by rw [hs]; simp
    have hz1 : 1 ≤ z := by omega
    have hval : decVal hi2 = 0 := by
      have := decVal_zeros_append z []
      rw [List.append_nil] at this
      rw [hs, this]; rfl
    have hskip : BigN_to_string_skip (hi2 ++ [0]) (hi2.length + 1) 0 = z - 1 := by
      apply BigN_to_string_skip_spec _ (z - 1) _ 0 (by omega) (by omega)
      · intro q _ hq
        rw [hs]
        exact ⟨getD_zeros_lt z q _ (by omega), by
          rw [getD_zeros_lt z (q + 1) _ (by omega)]; norm_num⟩
      · rw [hs]
        intro h
        have hidx : z - 1 + 1 = z := by omega
        rw [hidx, getD_zeros_at] at h
        exact h.2 rfl
    rw [hskip, hval]
    refine ⟨?_, by omega, by intro _ h2; omega⟩
    obtain ⟨w, hw⟩ : ∃ w, z = w + 1 := ⟨z - 1, by omega⟩
    rw [hs, hw, Nat.add_sub_cancel, List.replicate_succ', List.append_assoc, drop_zeros]
    rfl
  · subst hcr
    have hz : hi2.length = z + (r.length + 1) := by rw [hs]; simp
    have hdcr : isDigits (c :: r) := by
      intro y hy
      exact hd y (by rw [hs]; exact List.mem_append_right _ hy)
    have hc1 := hdcr c (by simp)
    have hval : decVal hi2 = decVal (c :: r) := by rw [hs, decVal_zeros_append]
    have hskip : BigN_to_string_skip (hi2 ++ [0]) (hi2.length + 1) 0 = z := by
      apply BigN_to_string_skip_spec _ z _ 0 (by omega) (by omega)
      · intro q _ hq
        rw [hs, List.append_assoc]
        refine ⟨getD_zeros_lt z q _ hq, ?_⟩
        by_cases hq1 : q + 1 < z
        · rw [getD_zeros_lt z (q + 1) _ hq1]; norm_num
        · have : q + 1 = z := by omega
          rw [this, List.cons_append, getD_zeros_at]
          omega
      · rw [hs, List.append_assoc, List.cons_append, getD_zeros_at]
        intro h
        exact hc h.1
    rw [hskip, hval, decimal_of_digits c r hdcr hc]
    refine ⟨?_, by omega, ?_⟩
    · rw [hs, List.append_assoc, drop_zeros]
    · intro hlt _
      by_contra hz0
      have hz0 : z = 0 := by omega
      rw [decVal_cons, hz, hz0] at hlt
      have hpos : 1 * 10 ^ r.length ≤ (c - 48) * 10 ^ r.length :=
        Nat.mul_le_mul_right _ (by omega)
      have hexp : 0 + (r.length + 1) - 1 = r.length := by omega
      rw [hexp] at hlt
      omega

theorem decimal_isDigits (m : Nat) : isDigits (decimal m) := by
  unfold decimal
  split_ifs with h
  · intro c hc
    have : c = 48 := by simpa using hc
    omega
  · intro c hc
    rw [List.mem_map] at hc
    obtain ⟨d, hd, rfl⟩ := hc
    have := Nat.digits_lt_base (by norm_num : 1 < 10) (List.mem_reverse.mp hd)
    omega

theorem isDigits_zeros (D : Nat) : isDigits (List.replicate D 48) := by
  intro c hc
  have := List.eq_of_mem_replicate hc
  omega

theorem BigN_to_string_core (n : BigN) (hlimbs : ∀ x ∈ n.val, x < 2 ^ 32) (sgn : Nat) :
    ∃ hi2, BigN_to_string_limbs n ((32 * n.size / 3 + sgn : Nat) : Int) n.size
          (List.replicate (32 * n.size / 3 + sgn + 1) 48 ++ [0]) = hi2 ++ [0]
      ∧ hi2.length = 32 * n.size / 3 + sgn + 1 ∧ isDigits hi2 ∧ decVal hi2 = magnitude n
      ∧ magnitude n < 10 ^ (32 * n.size / 3 + 1) := by
  have hD : ((((32 * n.size / 3 + sgn : Nat) : Int)) + 1).toNat = 32 * n.size / 3 + sgn + 1 := by
    omega
  obtain ⟨hi2, hres, hlen2, hdig2, hval2⟩ :=
    BigN_to_string_limbs_spec n _ _ hD hlimbs n.size (List.replicate (32 * n.size / 3 + sgn + 1) 48)
      [0] (by simp) (isDigits_zeros _)
  have hmag : magnitude n < 10 ^ (32 * n.size / 3 + 1) :=
    lt_trans (magnitude_lt n hlimbs) (two_pow_lt_ten_pow (32 * n.size))
  refine ⟨hi2, hres, hlen2, hdig2, ?_, hmag⟩
  rw [hval2]
  have hzero : decVal (List.replicate (32 * n.size / 3 + sgn + 1) 48) = 0 := by
    have := decVal_zeros_append (32 * n.size / 3 + sgn + 1) []
    rw [List.append_nil] at this
    rw [this]; rfl
  rw [hzero, Nat.zero_mul, Nat.zero_add, ← magnitude_eq_wsum]
  apply Nat.mod_eq_of_lt
  have hle : 10 ^ (32 * n.size / 3 + 1) ≤ 10 ^ (32 * n.size / 3 + sgn + 1) :=
    Nat.pow_le_pow_right (by norm_num) (by omega)
  omega

theorem decimal_spec (m : Nat) :
    isDigits (decimal m) ∧ decVal (decimal m) = m ∧ (m = 0 → decimal m = [48])
      ∧ (m ≠ 0 → (decimal m).head? ≠ some 48) := by
  refine ⟨decimal_isDigits m, ?_, ?_, ?_⟩
  · by_cases h : m = 0
    · subst h; rfl
    · rw [decVal_ofDigits]
      unfold decimal
      rw [if_neg h, List.map_map]
      have hid : ∀ d ∈ (Nat.digits 10 m).reverse, ((fun c => c - 48) ∘ fun d => d + 48) d = id d := by
        intro d _
        simp [Function.comp]
      rw [List.map_congr_left hid, List.map_id, List.reverse_reverse, Nat.ofDigits_digits]
  · intro h; subst h; rfl
  · intro h
    unfold decimal
    rw [if_neg h]
    have hne : Nat.digits 10 m ≠ [] := Nat.digits_ne_nil_iff_ne_zero.mpr h
    have hlast := Nat.getLast_digit_ne_zero 10 h
    obtain ⟨l, x, hlx⟩ : ∃ l x, Nat.digits 10 m = l ++ [x] :=
      ⟨(Nat.digits 10 m).dropLast, (Nat.digits 10 m).getLast hne,
        (List.dropLast_append_getLast hne).symm⟩
    simp only [hlx, List.getLast_append_singleton] at hlast
    rw [hlx]
    simp only [List.reverse_append, List.reverse_cons, List.reverse_nil, List.nil_append,
      List.singleton_append, List.map_cons, List.head?_cons]
    intro h48
    have : x + 48 = 48 := Option.some.inj h48
    omega

/-- C2. For every `BigN` with at least one limb and sign flag `0` or `1`,
`BigN_to_string` leaves in the buffer the decimal numeral of the magnitude (no leading
zero, magnitude `0` written as the single digit `0`), with `'-'` in front exactly when
the sign flag is `1`, followed by NUL. -/
theorem BigN_to_string_correct (n : BigN) (hwf : n.wf) (h1 : 1 ≤ n.size)
    (hs : n.sign = 0 ∨ n.sign = 1) :
    ∃ rest, BigN_to_string n
      = some ((if n.sign = 1 then [45] else []) ++ decimal (magnitude n) ++ 0 :: rest) := by
  obtain ⟨_, hlimbs, hbound⟩ := hwf
  norm_num at hbound
  have hsz : n.size < 201326592 := by omega
  have hcount : (wrap32 ((n.size : Int) - 1) + 1).toNat = n.size := by
    unfold wrap32
    rw [Int.emod_eq_of_lt (by omega) (by omega)]
    omega
  rcases hs with hs0 | hs1
  · obtain ⟨hi2, hres, hlen2, hdig2, hval2, hmag⟩ := BigN_to_string_core n hlimbs 0
    have hlen : ((((32 * n.size / 3 + 2 : Nat) : Int) + n.sign) % 18446744073709551616).toNat
        = 32 * n.size / 3 + 2 := by rw [hs0]; omega
    have hj0 : wrap32 (((32 * n.size / 3 + 2 : Nat) : Int) - 2)
        = ((32 * n.size / 3 + 0 : Nat) : Int) := by unfold wrap32; omega
    obtain ⟨htrim, _, _⟩ := trim_spec hi2 hdig2 (by omega)
    obtain ⟨rest, hrest⟩ := memmove_numeral (hi2 ++ [0]) _ (decimal (decVal hi2))
      (digits_ne_zero _ (decimal_isDigits _)) htrim
    refine ⟨rest, ?_⟩
    unfold BigN_to_string
    simp only [hlen, hcount, hj0, Nat.add_sub_cancel]
    rw [show 32 * n.size / 3 + 2 - 1 = 32 * n.size / 3 + 0 + 1 from by omega, hres]
    rw [if_neg (by rw [hs0]; decide), hrest, hval2, hs0]
    simp
  · obtain ⟨hi2, hres, hlen2, hdig2, hval2, hmag⟩ := BigN_to_string_core n hlimbs 1
    have hlen : ((((32 * n.size / 3 + 2 : Nat) : Int) + n.sign) % 18446744073709551616).toNat
        = 32 * n.size / 3 + 3 := by rw [hs1]; omega
    have hj0 : wrap32 (((32 * n.size / 3 + 3 : Nat) : Int) - 2)
        = ((32 * n.size / 3 + 1 : Nat) : Int) := by unfold wrap32; omega
    obtain ⟨htrim, hplt, hp1⟩ := trim_spec hi2 hdig2 (by omega)
    have hp : 1 ≤ BigN_to_string_skip (hi2 ++ [0]) (hi2 ++ [0]).length 0 :=
      hp1 (by rw [hval2, hlen2]; exact hmag) (by omega)
    have hdrop := set_drop 45 (hi2 ++ [0])
      (BigN_to_string_skip (hi2 ++ [0]) (hi2 ++ [0]).length 0 - 1)
      (Nat.lt_of_le_of_lt (Nat.sub_le _ _) (Nat.lt_of_lt_of_le hplt (by simp)))
    rw [Nat.sub_add_cancel hp, htrim] at hdrop
    obtain ⟨rest, hrest⟩ := memmove_numeral
      ((hi2 ++ [0]).set (BigN_to_string_skip (hi2 ++ [0]) (hi2 ++ [0]).length 0 - 1) 45) _
      (45 :: decimal (decVal hi2))
      (by
        intro x hx
        rcases List.mem_cons.mp hx with h | h
        · omega
        · exact digits_ne_zero _ (decimal_isDigits _) x h)
      (by rw [hdrop]; rfl)
    refine ⟨rest, ?_⟩
    unfold BigN_to_string
    simp only [hlen, hcount, hj0]
    rw [show 32 * n.size / 3 + 3 - 1 = 32 * n.size / 3 + 1 + 1 from by omega, hres]
    rw [if_pos (by rw [hs1]; decide), if_neg (by omega), hrest, hval2, hs1]
    simp

theorem BigN_to_string_correct_witness :
    BigN.wf ⟨[0, 5], 2, 1⟩ ∧ 1 ≤ (BigN.mk [0, 5] 2 1).size
      ∧ ((BigN.mk [0, 5] 2 1).sign = 0 ∨ (BigN.mk [0, 5] 2 1).sign = 1)
      ∧ ∃ rest, BigN_to_string ⟨[0, 5], 2, 1⟩
          = some ((if (BigN.mk [0, 5] 2 1).sign = 1 then [45] else [])
              ++ decimal (magnitude ⟨[0, 5], 2, 1⟩) ++ 0 :: rest) :=
  ⟨by decide, by decide, by decide,
    BigN_to_string_correct ⟨[0, 5], 2, 1⟩ (by decide) (by decide) (by decide)⟩

/-! ## `fib_read`: the text of `F(k)` -/

theorem fib_sequence_BigN_loop_sign (k : Int) :
    ∀ (fuel : Nat) (i : Int) (a b r : BigN), b.sign = 0 →
      fib_sequence_BigN_loop k fuel i a b = some r → r.sign = 0 := by
  intro fuel
  induction fuel with
  | zero => intro i a b r _ h; simp [fib_sequence_BigN_loop] at h
  | succ f ih =>
    intro i a b r hb h
    rw [fib_sequence_BigN_loop] at h
    split_ifs at h with h1 h2
    · exact ih (i + 1) b (BigN_add a b) r (BigN_add_sign a b) h
    · have : b = r := by simpa using h
      rw [← this]; exact hb

theorem fib_sequence_BigN_sign (k : Int) (r : BigN) (h : fib_sequence_BigN k = some r) :
    r.sign = 0 := by
  unfold fib_sequence_BigN at h
  simp only at h
  split_ifs at h with h0
  · have : BigN_new 1 = r := by simpa using h
    rw [← this]; rfl
  · exact fib_sequence_BigN_loop_sign k _ _ _ _ r rfl h

theorem cstring_numeral (l rest : List Nat) (h : ∀ x ∈ l, x ≠ 0) :
    cstring (l ++ 0 :: rest) = l := takeWhile_ne_zero l rest h

theorem good_size_le (n : BigN) (hn : n.good) (m : Nat) (hm : 1 ≤ m)
    (hk : magnitude n < 2 ^ (32 * m)) : n.size ≤ m := by
  by_contra hlt
  have h2 : 2 ≤ n.size := by omega
  have htop := limbAt_top_ne_zero n hn.2.2 h2
  obtain ⟨q, hq⟩ : ∃ q, n.size = q + 1 := ⟨n.size - 1, by omega⟩
  have hmag : magnitude n = wsum (limbAt n) (q + 1) := by
    rw [wsum_limbAt_of_le n (q + 1) (by omega)]
  rw [hq, Nat.add_sub_cancel] at htop
  rw [wsum_succ] at hmag
  have hge : 2 ^ (32 * q) ≤ magnitude n := by
    rw [hmag]
    calc 2 ^ (32 * q) = 1 * 2 ^ (32 * q) := by ring
      _ ≤ limbAt n q * 2 ^ (32 * q) := Nat.mul_le_mul_right _ (by omega)
      _ ≤ _ := Nat.le_add_left _ _
  have hpow : 2 ^ (32 * q) < 2 ^ (32 * m) := lt_of_le_of_lt hge hk
  have hexp : 32 * q < 32 * m := (Nat.pow_lt_pow_iff_right (by norm_num)).mp hpow
  omega

theorem fib_232_lt : Nat.fib 232 < 2 ^ (32 * 5) := by norm_num

theorem fib_233_ge : 2 ^ 160 ≤ Nat.fib 233 := by norm_num

theorem fib_233_lt : Nat.fib 233 < 2 ^ (32 * 6) := by norm_num

theorem BigN_to_string_len_eq (r : BigN) (hsign : r.sign = 0) (hsize : r.size < 201326592) :
    BigN_to_string_len r = 32 * r.size / 3 + 2 := by
  unfold BigN_to_string_len
  rw [hsign, Int.add_zero, Int.emod_eq_of_lt (by omega) (by omega), Int.toNat_ofNat]

theorem fib_read_text_spec (K : Nat) (hK : K ≤ 232) :
    fib_read_text (K : Int) = some (decimal (Nat.fib K)) := by
  obtain ⟨r, hr, hmag, hgood⟩ := fib_sequence_BigN_spec K (by omega)
  have hsign := fib_sequence_BigN_sign _ r hr
  have hsize : r.size ≤ 5 :=
    good_size_le r hgood 5 (by norm_num)
      (by rw [hmag]; exact lt_of_le_of_lt (Nat.fib_mono hK) fib_232_lt)
  have hwf : r.wf := by
    refine ⟨hgood.1, hgood.2.1, ?_⟩
    norm_num
    omega
  obtain ⟨rest, hrest⟩ := BigN_to_string_correct r hwf hgood.2.2.1 (Or.inl hsign)
  have hlen : BigN_to_string_len r ≤ 64 := by
    rw [BigN_to_string_len_eq r hsign (by omega)]
    omega
  unfold fib_read_text
  rw [hr]
  simp only [if_pos hlen, hrest, Option.map_some', hsign]
  rw [if_neg (by decide), List.nil_append,
    cstring_numeral _ _ (digits_ne_zero _ (decimal_isDigits _)), hmag]

theorem decimal_fib_200 :
    decimal (Nat.fib 200) = bytes "280571172992510140037611932413038677189525" := by
  have h : Nat.fib 200 = 280571172992510140037611932413038677189525 := by
    norm_num [Nat.fib_add_two]
  rw [h]
  unfold decimal
  norm_num [bytes]
  decide

theorem decimal_fib_10 : decimal (Nat.fib 10) = bytes "55" := by
  have h : Nat.fib 10 = 55 := by norm_num [Nat.fib_add_two]
  rw [h]
  unfold decimal
  norm_num [bytes]
  decide

theorem fib_sequence_BigN_none (k : Int) (hk : INT_MAX ≤ k) : fib_sequence_BigN k = none := by
  have hk0 : ¬ (k = 0) := by unfold INT_MAX at hk; omega
  unfold fib_sequence_BigN
  simp only [if_neg hk0]
  exact fib_sequence_BigN_loop_none k hk _ 2 _ _ (by decide)

theorem fib_read_text_none (k : Int) (h : fib_sequence_BigN k = none) :
    fib_read_text k = none := by
  unfold fib_read_text
  rw [h]

theorem fib_sequence_BigN_len_overrun (K : Nat) (h233 : 233 ≤ K) (hK : K < 2147483647)
    (r : BigN) (hr : fib_sequence_BigN (K : Int) = some r) : 66 ≤ BigN_to_string_len r := by
  obtain ⟨q, hq, hmag, hgood⟩ := fib_sequence_BigN_spec K hK
  have hrq : q = r := by
    rw [hq] at hr
    exact Option.some.inj hr
  subst hrq
  have hsign := fib_sequence_BigN_sign _ q hq
  have hlt := magnitude_lt q hgood.2.1
  have hge : 2 ^ 160 ≤ magnitude q := by
    rw [hmag]
    exact le_trans fib_233_ge (Nat.fib_mono h233)
  have hpow : 2 ^ 160 < 2 ^ (32 * q.size) := lt_of_le_of_lt hge hlt
  have hexp : 160 < 32 * q.size := (Nat.pow_lt_pow_iff_right (by norm_num)).mp hpow
  have hsize := good_size_bound q hgood K (by rw [hmag]; exact fib_lt_two_pow K)
  rw [BigN_to_string_len_eq q hsign (by omega)]
  omega

theorem fib_read_text_overrun (k : Int) (hk : 233 ≤ k) : fib_read_text k = none := by
  by_cases hmax : INT_MAX ≤ k
  · exact fib_read_text_none k (fib_sequence_BigN_none k hmax)
  · unfold INT_MAX at hmax
    obtain ⟨K, rfl⟩ := Int.eq_ofNat_of_zero_le (by omega : (0 : Int) ≤ k)
    obtain ⟨r, hr, _, _⟩ := fib_sequence_BigN_spec K (by omega)
    have hlen := fib_sequence_BigN_len_overrun K (by omega) (by omega) r hr
    unfold fib_read_text
    rw [hr]
    simp only [if_neg (by omega : ¬ BigN_to_string_len r ≤ 64)]

/-- C4 (counterexample). At `k = 233` the `BigN` of `F(233)` has 6 limbs, so
`BigN_to_string` computes `len = 66` and writes 66 bytes into the 64-byte array `fib` of
`fib_read`: past its end, so the text of `F(233)` is not produced. -/
theorem fib_read_text_233 :
    (∃ r, fib_sequence_BigN 233 = some r ∧ magnitude r = Nat.fib 233 ∧ r.size = 6
        ∧ BigN_to_string_len r = 66)
      ∧ fib_read_text 233 = none := by
  refine ⟨?_, fib_read_text_overrun 233 (by decide)⟩
  obtain ⟨r, hr, hmag, hgood⟩ := fib_sequence_BigN_spec 233 (by norm_num)
  have hsign := fib_sequence_BigN_sign _ r hr
  have hle : r.size ≤ 6 :=
    good_size_le r hgood 6 (by norm_num) (by rw [hmag]; exact fib_233_lt)
  have hlen := fib_sequence_BigN_len_overrun 233 (by norm_num) (by norm_num) r hr
  rw [BigN_to_string_len_eq r hsign (by omega)] at hlen
  have h6 : r.size = 6 := by omega
  refine ⟨r, hr, hmag, h6, ?_⟩
  rw [BigN_to_string_len_eq r hsign (by omega), h6]

/-- C4 (amended). For every index `k` with `0 <= k <= 232`, `fib_read` at `k` leaves in
its array the decimal numeral of `F(k)`, the text `BigN_to_string` makes of
`fib_sequence_BigN(k)`; for `k = 200` the text is
`280571172992510140037611932413038677189525` (42 digits) and for `k = 10` it is `55`. -/
theorem fib_read_text_correct :
    (∀ k : Int, 0 ≤ k → k ≤ 232 →
        fib_read_text k = some (decimal (Nat.fib k.toNat)))
      ∧ fib_read_text 200 = some (bytes "280571172992510140037611932413038677189525")
      ∧ (bytes "280571172992510140037611932413038677189525").length = 42
      ∧ fib_read_text 10 = some (bytes "55") := by
  refine ⟨?_, ?_, by decide, ?_⟩
  · intro k h0 hk
    obtain ⟨K, rfl⟩ := Int.eq_ofNat_of_zero_le h0
    rw [fib_read_text_spec K (by omega)]
    simp
  · have h := fib_read_text_spec 200 (by norm_num)
    rw [decimal_fib_200] at h
    exact h
  · have h := fib_read_text_spec 10 (by norm_num)
    rw [decimal_fib_10] at h
    exact h

theorem fib_read_text_correct_witness :
    (0 : Int) ≤ 232 ∧ (232 : Int) ≤ 232
      ∧ fib_read_text 232 = some (decimal (Nat.fib (232 : Int).toNat)) :=
  ⟨by decide, by decide, fib_read_text_correct.1 232 (by decide) (by decide)⟩

/-! ## The four strategies side by side -/

theorem strategies_agree (k : Int) (h1 : 1 ≤ k) (h92 : k ≤ 92) :
    fib_sequence k = some (Nat.fib k.toNat : Int)
      ∧ fast_doubling k = (Nat.fib k.toNat : Int)
      ∧ fast_doubling_clz k = some (Nat.fib k.toNat : Int)
      ∧ (fib_sequence_BigN k).map magnitude = some (Nat.fib k.toNat) := by
  obtain ⟨K, rfl⟩ := Int.eq_ofNat_of_zero_le (by omega : (0 : Int) ≤ k)
  have hK : K ≤ 92 := by omega
  have hK32 : K < 2 ^ 32 := by
    have : (92 : Nat) < 2 ^ 32 := by norm_num
    omega
  obtain ⟨r, hr, hmag, _⟩ := fib_sequence_BigN_spec K (by omega)
  simp only [Int.toNat_ofNat]
  refine ⟨?_, ?_, ?_, ?_⟩
  · unfold fib_sequence
    rw [fib_sequence_run_spec K hK]
    rfl
  · rw [fast_doubling_wrap K hK32, wrap64_fib K hK]
  · rw [fast_doubling_clz_wrap K (by omega) hK32, wrap64_fib K hK]
  · rw [hr]
    simp [hmag]

theorem strategies_agree_witness :
    (1 : Int) ≤ 50 ∧ (50 : Int) ≤ 92
      ∧ fib_sequence 50 = some 12586269025 ∧ fast_doubling 50 = 12586269025
      ∧ fast_doubling_clz 50 = some 12586269025
      ∧ (fib_sequence_BigN 50).map magnitude = some 12586269025 := by
  have h := strategies_agree 50 (by decide) (by decide)
  have hf : Nat.fib (50 : Int).toNat = 12586269025 := by
    rw [show (50 : Int).toNat = 50 from rfl]
    norm_num [Nat.fib_add_two]
  rw [hf] at h
  exact ⟨by decide, by decide, h⟩

theorem fd_step_zero (i : Nat) : fd_step 0 i (0, 1) = (0, 1) := by
  have h : Int.land 0 (i : Int) = 0 := by
    show ((0 &&& i : Nat) : Int) = 0
    simp
  rw [fd_step]
  simp only [h, ne_eq, not_true_eq_false, if_false]
  decide

theorem fd_loop_zero : ∀ (t i : Nat), fd_loop 0 t i (0, 1) = (0, 1) := by
  intro t
  induction t with
  | zero => intro i; rfl
  | succ t ih =>
    intro i
    rw [fd_loop]
    split_ifs
    · rfl
    · rw [fd_step_zero]
      exact ih _

theorem fast_doubling_clz_start_pos (u K : Nat) (h1 : 1 ≤ K) (h : K < 2 ^ 32) :
    fast_doubling_clz_start u (K : Int) = 2 ^ Nat.log2 K := by
  have hlog : Nat.log2 K < 32 := (Nat.log2_lt (by omega)).mpr h
  have hexp : 31 - (31 - Nat.log2 K) = Nat.log2 K := by omega
  unfold fast_doubling_clz_start
  rw [toU32_natCast K h, builtin_clz_pos K h1]
  simp only [hexp]

theorem fast_doubling_clz_run_pos (u K : Nat) (h1 : 1 ≤ K) (h : K < 2 ^ 32) :
    fast_doubling_clz (K : Int) = some (fast_doubling_clz_run u (K : Int)) := by
  have hlog : Nat.log2 K < 32 := (Nat.log2_lt (by omega)).mpr h
  have hexp : 31 - (31 - Nat.log2 K) = Nat.log2 K := by omega
  unfold fast_doubling_clz_run
  rw [fast_doubling_clz_start_pos u K h1 h]
  unfold fast_doubling_clz
  rw [toU32_natCast K h, builtin_clz_pos K h1]
  simp only [hexp]

theorem fast_doubling_clz_run_zero (u : Nat) : fast_doubling_clz_run u 0 = 0 := by
  unfold fast_doubling_clz_run
  rw [fd_loop_zero]

set_option maxRecDepth 100000 in
theorem strategies_zero :
    fib_sequence 0 = some 0 ∧ fast_doubling 0 = 0
      ∧ (fib_sequence_BigN 0).map magnitude = some 0 := by
  decide

/-- C5. For every `k` in `[0, 30]`, `fib_sequence(k)`, `fast_doubling(k)`,
`fast_doubling_clz(k)` and the magnitude of `fib_sequence_BigN(k)` are all equal: each is
`F(k)`.  At `k = 0`, where the start mask of `fast_doubling_clz` comes from
`__builtin_clz(0)`, this holds for every start mask `u` the machine may yield.  Likewise
at index `50` all four strategies give `12586269025`. -/
theorem strategies_equal :
    (∀ (u : Nat) (k : Int), 0 ≤ k → k ≤ 30 →
        fib_sequence k = some (Nat.fib k.toNat : Int)
          ∧ fast_doubling k = (Nat.fib k.toNat : Int)
          ∧ fast_doubling_clz_run u k = (Nat.fib k.toNat : Int)
          ∧ (fib_sequence_BigN k).map magnitude = some (Nat.fib k.toNat))
      ∧ (∀ u : Nat,
          fib_sequence 50 = some 12586269025 ∧ fast_doubling 50 = 12586269025
            ∧ fast_doubling_clz_run u 50 = 12586269025
            ∧ (fib_sequence_BigN 50).map magnitude = some 12586269025) := by
  have key : ∀ (u : Nat) (k : Int), 0 ≤ k → k ≤ 92 →
      fib_sequence k = some (Nat.fib k.toNat : Int)
        ∧ fast_doubling k = (Nat.fib k.toNat : Int)
        ∧ fast_doubling_clz_run u k = (Nat.fib k.toNat : Int)
        ∧ (fib_sequence_BigN k).map magnitude = some (Nat.fib k.toNat) := by
    intro u k h0 h92
    by_cases hk0 : k = 0
    · subst hk0
      obtain ⟨ha, hb, hc⟩ := strategies_zero
      exact ⟨ha, hb, fast_doubling_clz_run_zero u, hc⟩
    · obtain ⟨ha, hb, hc, hd⟩ := strategies_agree k (by omega) h92
      refine ⟨ha, hb, ?_, hd⟩
      obtain ⟨K, rfl⟩ := Int.eq_ofNat_of_zero_le h0
      have hK32 : K < 2 ^ 32 := by
        have : (92 : Nat) < 2 ^ 32 := by norm_num
        omega
      rw [fast_doubling_clz_run_pos u K (by omega) hK32] at hc
      exact Option.some.inj hc
  refine ⟨fun u k h0 h30 => key u k h0 (by omega), fun u => ?_⟩
  have h := key u 50 (by decide) (by decide)
  have hf : Nat.fib (50 : Int).toNat = 12586269025 := by
    rw [show (50 : Int).toNat = 50 from rfl]
    norm_num [Nat.fib_add_two]
  rw [hf] at h
  exact h

theorem strategies_equal_witness :
    (0 : Int) ≤ 0 ∧ (0 : Int) ≤ 30
      ∧ fib_sequence 0 = some (Nat.fib (0 : Int).toNat : Int)
      ∧ fast_doubling 0 = (Nat.fib (0 : Int).toNat : Int)
      ∧ fast_doubling_clz_run 8192 0 = (Nat.fib (0 : Int).toNat : Int)
      ∧ (fib_sequence_BigN 0).map magnitude = some (Nat.fib (0 : Int).toNat) :=
  ⟨by decide, by decide, strategies_equal.1 8192 0 (by decide) (by decide)⟩

/-! ## Iterations of the doubling loops -/

theorem fd_loop_trace_length (n : Int) :
    ∀ (t j : Nat) (s : Int × Int), j < t → (fd_loop_trace n t (2 ^ j) s).length = j + 1 := by
  intro t
  induction t with
  | zero => intro j s h; omega
  | succ t ih =>
    intro j s hj
    have hpos : (2 : Nat) ^ j ≠ 0 := by positivity
    rw [fd_loop_trace, if_neg hpos, List.length_cons]
    cases j with
    | zero =>
      have h0 : (2 : Nat) ^ 0 / 2 = 0 := by norm_num
      rw [h0]
      cases t <;> simp [fd_loop_trace]
    | succ j' =>
      have hhalf : (2 : Nat) ^ (j' + 1) / 2 = 2 ^ j' := by
        rw [pow_succ]; exact Nat.mul_div_cancel _ (by norm_num)
      rw [hhalf, ih j' _ (by omega)]

theorem fast_doubling_trace_length (n : Int) : (fast_doubling_trace n).length = 32 := by
  unfold fast_doubling_trace
  exact fd_loop_trace_length n 32 31 (0, 1) (by norm_num)

theorem fast_doubling_clz_iterations (k : Int) (h1 : 1 ≤ k) (h32 : k < 4294967296) :
    (fast_doubling_clz_trace k).map List.length = some (Nat.log2 k.toNat + 1)
      ∧ Nat.log2 k.toNat + 1 ≤ (fast_doubling_trace k).length := by
  obtain ⟨K, rfl⟩ := Int.eq_ofNat_of_zero_le (by omega : (0 : Int) ≤ k)
  have hK1 : 1 ≤ K := by omega
  have hK : K < 2 ^ 32 := by norm_num; omega
  have hlog : Nat.log2 K < 32 := (Nat.log2_lt (by omega)).mpr hK
  have hexp : 31 - (31 - Nat.log2 K) = Nat.log2 K := by omega
  rw [fast_doubling_trace_length]
  refine ⟨?_, by simp only [Int.toNat_ofNat]; omega⟩
  unfold fast_doubling_clz_trace
  rw [toU32_natCast K hK, builtin_clz_pos K hK1]
  simp only [hexp, Option.map_some', Int.toNat_ofNat]
  rw [fd_loop_trace_length (K : Int) 32 (Nat.log2 K) (0, 1) hlog]

theorem fast_doubling_clz_iterations_witness :
    (1 : Int) ≤ 30 ∧ (30 : Int) < 4294967296
      ∧ (fast_doubling_clz_trace 30).map List.length = some (Nat.log2 (30 : Int).toNat + 1)
      ∧ Nat.log2 (30 : Int).toNat + 1 ≤ (fast_doubling_trace 30).length :=
  ⟨by decide, by decide, fast_doubling_clz_iterations 30 (by decide) (by decide)⟩

theorem fd_loop_trace_length_le (n : Int) :
    ∀ (t j i : Nat) (s : Int × Int), i < 2 ^ j → (fd_loop_trace n t i s).length ≤ j := by
  intro t
  induction t with
  | zero => intro j i s _; simp [fd_loop_trace]
  | succ t ih =>
    intro j i s hi
    rw [fd_loop_trace]
    split_ifs with h0
    · simp
    · cases j with
      | zero => simp at hi; omega
      | succ j =>
        rw [List.length_cons]
        have := ih j (i / 2) (fd_step n i s) (by rw [pow_succ] at hi; omega)
        omega

theorem fast_doubling_clz_start_lt (u : Nat) (n : Int) :
    fast_doubling_clz_start u n < 2 ^ 32 := by
  unfold fast_doubling_clz_start
  split
  · exact Nat.mod_lt _ (by norm_num)
  · exact Nat.pow_lt_pow_right (by norm_num) (by omega)

/-- C11. For every `k` in `[0, 30]` the doubling loop of `fast_doubling_clz(k)` runs no
more times than that of `fast_doubling(k)`, which runs 32 times; at `k = 0` this holds for
every start mask `u` the machine may yield, and within any step budget.  For every
`k >= 1` (below `2^32`) the loop of `fast_doubling_clz(k)` runs exactly
`floor(log2(k)) + 1` times. -/
theorem fast_doubling_clz_iteration_count :
    (∀ (u : Nat) (k : Int), 0 ≤ k → k ≤ 30 →
        (fast_doubling_trace k).length = 32
          ∧ (fast_doubling_clz_run_trace u k).length ≤ (fast_doubling_trace k).length
          ∧ ∀ t : Nat,
              (fd_loop_trace k t (fast_doubling_clz_start u k) (0, 1)).length ≤ 32)
      ∧ (∀ (u : Nat) (k : Int), 1 ≤ k → k < 4294967296 →
          (fast_doubling_clz_run_trace u k).length = Nat.log2 k.toNat + 1
            ∧ fast_doubling_clz_trace k = some (fast_doubling_clz_run_trace u k)) := by
  constructor
  · intro u k _ _
    have hle : ∀ t : Nat,
        (fd_loop_trace k t (fast_doubling_clz_start u k) (0, 1)).length ≤ 32 :=
      fun t => fd_loop_trace_length_le k t 32 _ _ (fast_doubling_clz_start_lt u k)
    refine ⟨fast_doubling_trace_length k, ?_, hle⟩
    rw [fast_doubling_trace_length]
    exact hle 32
  · intro u k h1 h32
    obtain ⟨K, rfl⟩ := Int.eq_ofNat_of_zero_le (by omega : (0 : Int) ≤ k)
    have hK1 : 1 ≤ K := by omega
    have hK : K < 2 ^ 32 := by norm_num; omega
    have hlog : Nat.log2 K < 32 := (Nat.log2_lt (by omega)).mpr hK
    have hexp : 31 - (31 - Nat.log2 K) = Nat.log2 K := by omega
    have hrun : fast_doubling_clz_run_trace u (K : Int)
        = fd_loop_trace (K : Int) 32 (2 ^ Nat.log2 K) (0, 1) := by
      unfold fast_doubling_clz_run_trace
      rw [fast_doubling_clz_start_pos u K hK1 hK]
    refine ⟨?_, ?_⟩
    · rw [hrun, fd_loop_trace_length (K : Int) 32 (Nat.log2 K) (0, 1) hlog]
      simp
    · rw [hrun]
      unfold fast_doubling_clz_trace
      rw [toU32_natCast K hK, builtin_clz_pos K hK1]
      simp only [hexp]

theorem fast_doubling_clz_iteration_count_witness :
    (0 : Int) ≤ 0 ∧ (0 : Int) ≤ 30
      ∧ (fast_doubling_trace 0).length = 32
      ∧ (fast_doubling_clz_run_trace 8192 0).length ≤ (fast_doubling_trace 0).length
      ∧ ∀ t : Nat,
          (fd_loop_trace 0 t (fast_doubling_clz_start 8192 0) (0, 1)).length ≤ 32 :=
  ⟨by decide, by decide, fast_doubling_clz_iteration_count.1 8192 0 (by decide) (by decide)⟩

/-! ## Beyond index 92 -/

theorem wrap64_zero : wrap64 0 = 0 := by decide

theorem fib_sequence_loop_wrap (K : Nat) (hK : K < 2147483647) :
    ∀ (d m fuel : Nat) (ok : Bool), m + 1 + d = K → d < fuel →
      ∃ ok2, fib_sequence_loop (K : Int) fuel ((m : Int) + 2) (wrap64 (Nat.fib m))
        (wrap64 (Nat.fib (m + 1))) ok = some (wrap64 (Nat.fib K), ok2) := by
  intro d
  induction d with
  | zero =>
    intro m fuel ok hm hf
    obtain ⟨f, rfl⟩ : ∃ f, fuel = f + 1 := ⟨fuel - 1, by omega⟩
    have hnot : ¬ ((m : Int) + 2 ≤ (K : Int)) := by omega
    rw [fib_sequence_loop, if_neg hnot]
    have : m + 1 = K := by omega
    rw [this]
    exact ⟨ok, rfl⟩
  | succ d ih =>
    intro m fuel ok hm hf
    obtain ⟨f, rfl⟩ : ∃ f, fuel = f + 1 := ⟨fuel - 1, by omega⟩
    have hle : (m : Int) + 2 ≤ (K : Int) := by omega
    have hmax : ¬ ((m : Int) + 2 = INT_MAX) := by unfold INT_MAX; omega
    rw [fib_sequence_loop, if_pos hle, if_neg hmax]
    have hsum : wrap64 (wrap64 (Nat.fib m) + wrap64 (Nat.fib (m + 1)))
        = wrap64 (Nat.fib (m + 1 + 1)) := by
      apply wrap64_congr
      have h : (Nat.fib (m + 1 + 1) : Int) = Nat.fib m + Nat.fib (m + 1) := by
        rw [Nat.fib_add_two]; push_cast; ring
      rw [h]
      exact (wrap64_modEq _).add (wrap64_modEq _)
    have hidx : (m : Int) + 2 + 1 = ((m + 1 : Nat) : Int) + 2 := by push_cast; ring
    rw [hsum, hidx]
    exact ih (m + 1) f _ (by omega) (by omega)

theorem fib_sequence_wrap (K : Nat) (hK : K < 2147483647) :
    fib_sequence (K : Int) = some (wrap64 (Nat.fib K)) := by
  unfold fib_sequence fib_sequence_run
  by_cases h0 : K = 0
  · subst h0
    simp [wrap64_zero]
  · have hne : ¬ ((K : Int) = 0) := by omega
    rw [if_neg hne]
    have h := fib_sequence_loop_wrap K hK (K - 1) 0 ((K : Int).toNat + 1) true (by omega)
      (by simp only [Int.toNat_ofNat]; omega)
    obtain ⟨ok2, hok⟩ := h
    have h01 : wrap64 ((Nat.fib 0 : Nat) : Int) = 0 ∧ wrap64 ((Nat.fib (0 + 1) : Nat) : Int) = 1 := by
      simp only [Nat.fib_zero, Nat.fib_one]
      constructor <;> decide
    rw [h01.1, h01.2] at hok
    have hz : ((0 : Nat) : Int) + 2 = 2 := by norm_num
    rw [hz] at hok
    rw [hok]
    rfl

/-- C19. With 64-bit arithmetic wrapping modulo `2^64`, for every `n` with
`0 <= n < 2^32`, `fast_doubling(n)` is `F(n)` reduced to the signed 64-bit range, so it
is congruent to `F(n)` modulo `2^64`; and for every such `n` up to `100`,
`fib_sequence(n)` returns that same value. -/
theorem fast_doubling_mod (n : Int) (h0 : 0 ≤ n) (h32 : n < 4294967296) :
    fast_doubling n = wrap64 (Nat.fib n.toNat)
      ∧ fast_doubling n ≡ (Nat.fib n.toNat : Int) [ZMOD 18446744073709551616]
      ∧ -9223372036854775808 ≤ fast_doubling n ∧ fast_doubling n < 9223372036854775808
      ∧ (n ≤ 100 → fib_sequence n = some (fast_doubling n)) := by
  obtain ⟨N, rfl⟩ := Int.eq_ofNat_of_zero_le h0
  have hN : N < 2 ^ 32 := by norm_num; omega
  have hfd := fast_doubling_wrap N hN
  simp only [Int.toNat_ofNat]
  refine ⟨hfd, ?_, ?_, ?_, ?_⟩
  · rw [hfd]; exact wrap64_modEq _
  · rw [hfd]; exact wrap64_lower _
  · rw [hfd]; exact wrap64_upper _
  · intro h100
    rw [hfd, fib_sequence_wrap N (by omega)]

theorem fast_doubling_mod_witness :
    (0 : Int) ≤ 93 ∧ (93 : Int) < 4294967296
      ∧ fast_doubling 93 = wrap64 (Nat.fib (93 : Int).toNat)
      ∧ fast_doubling 93 ≡ (Nat.fib (93 : Int).toNat : Int) [ZMOD 18446744073709551616]
      ∧ -9223372036854775808 ≤ fast_doubling 93 ∧ fast_doubling 93 < 9223372036854775808
      ∧ ((93 : Int) ≤ 100 → fib_sequence 93 = some (fast_doubling 93)) :=
  ⟨by decide, by decide, fast_doubling_mod 93 (by decide) (by decide)⟩

set_option maxRecDepth 100000 in
/-- C13. At index 93 `fib_sequence` returns a value, `F(93) - 2^64 =
-6246583658587674878`, without any flag; it differs from the true `F(93) =
12200160415121876738`, the magnitude `fib_sequence_BigN(93)` produces. -/
theorem fib_sequence_93 :
    fib_sequence 93 = some (-6246583658587674878)
      ∧ (-6246583658587674878 : Int) = 12200160415121876738 - 18446744073709551616
      ∧ (fib_sequence_BigN 93).map magnitude = some 12200160415121876738
      ∧ Nat.fib 93 = 12200160415121876738
      ∧ (2 : Int) ^ 64 = 18446744073709551616 := by
  refine ⟨by decide, by decide, by decide, ?_, by norm_num⟩
  norm_num [Nat.fib_add_two]

/-! ## `MAX_LENGTH` and `fib_write` -/

/-- C14 (the code at the failing input). `MAX_LENGTH` is `100`, not `92`: seeking to
offset `100` from the start yields position `100`. -/
theorem fib_device_lseek_100 :
    MAX_LENGTH = 100 ∧ fib_device_lseek ⟨0⟩ 100 0 = (⟨100⟩, 100)
      ∧ (92 : Int) < (fib_device_lseek ⟨0⟩ 100 0).2 := by
  decide

/-- C20. For every selector other than `0`, `1`, `2` and `3`, `fib_write` invokes no
strategy and reads no clock: the state, the stored duration included, is unchanged, and
the stored duration is the value returned, which is zero in the initial state. -/
theorem fib_write_unrecognised (clock : Nat → Int) (d : Driver) (size : Nat) (offset : Int)
    (h0 : size ≠ 0) (h1 : size ≠ 1) (h2 : size ≠ 2) (h3 : size ≠ 3) :
    fib_write clock d size offset = some (d, d.kt)
      ∧ fib_write clock Driver.init size offset = some (Driver.init, 0) := by
  unfold fib_write
  rw [if_neg h0, if_neg h1, if_neg h2, if_neg h3, if_neg h0, if_neg h1, if_neg h2, if_neg h3]
  exact ⟨rfl, rfl⟩

theorem fib_write_unrecognised_witness :
    (7 : Nat) ≠ 0 ∧ (7 : Nat) ≠ 1 ∧ (7 : Nat) ≠ 2 ∧ (7 : Nat) ≠ 3
      ∧ fib_write (fun r => 1000 * r) ⟨5, 2, [0]⟩ 7 10 = some (⟨5, 2, [0]⟩, 5)
      ∧ fib_write (fun r => 1000 * r) Driver.init 7 10 = some (Driver.init, 0) :=
  ⟨by decide, by decide, by decide, by decide,
    fib_write_unrecognised (fun r => 1000 * r) ⟨5, 2, [0]⟩ 7 10 (by decide) (by decide)
      (by decide) (by decide)⟩

/-! ## Intermediate values of the doubling loops -/

theorem fits64_of_le_fib (x : Int) (k : Nat) (hk : k ≤ 92) (h0 : 0 ≤ x) (hx : x ≤ (Nat.fib k : Int)) :
    fits64 x = true := by
  have := fib_le_92 k hk
  unfold fits64
  simp only [Bool.and_eq_true, decide_eq_true_eq]
  constructor <;> omega

theorem fd_step_values_fit (N j m : Nat) (h : 2 * m + N / 2 ^ j % 2 ≤ 91) :
    ∀ v ∈ fd_step_values (N : Int) (2 ^ j) (fibPair m), fits64 v = true := by
  have hm : m ≤ 45 := by omega
  have hsq : Nat.fib m * Nat.fib m + Nat.fib (m + 1) * Nat.fib (m + 1) = Nat.fib (2 * m + 1) := by
    rw [Nat.fib_two_mul_add_one]; ring
  have hmono : Nat.fib m ≤ Nat.fib (m + 1) := Nat.fib_le_fib_succ
  have h3 : 2 * Nat.fib (m + 1) ≤ Nat.fib (m + 3) := by
    have e1 : Nat.fib (m + 3) = Nat.fib (m + 1) + Nat.fib (m + 2) := Nat.fib_add_two
    have e2 : Nat.fib (m + 2) = Nat.fib m + Nat.fib (m + 1) := Nat.fib_add_two
    omega
  have h3i : 2 * (Nat.fib (m + 1) : Int) ≤ (Nat.fib (m + 3) : Int) := by exact_mod_cast h3
  have hmi : (Nat.fib m : Int) ≤ (Nat.fib (m + 1) : Int) := by exact_mod_cast hmono
  have hn0 : (0 : Int) ≤ Nat.fib m := Int.natCast_nonneg _
  have hn1 : (0 : Int) ≤ Nat.fib (m + 1) := Int.natCast_nonneg _
  have hb3 := fib_le_92 (m + 3) (by omega)
  have hsqi : (Nat.fib m : Int) * Nat.fib m + (Nat.fib (m + 1) : Int) * Nat.fib (m + 1)
      = (Nat.fib (2 * m + 1) : Int) := fib_double_succ m
  have haa0 : (0 : Int) ≤ (Nat.fib m : Int) * Nat.fib m := mul_nonneg hn0 hn0
  have hbb0 : (0 : Int) ≤ (Nat.fib (m + 1) : Int) * Nat.fib (m + 1) := mul_nonneg hn1 hn1
  have hb2m1 := fib_le_92 (2 * m + 1) (by omega)
  have ea : wrap64 (Nat.fib m) = Nat.fib m := wrap64_fib m (by omega)
  have eb : wrap64 (Nat.fib (m + 1)) = Nat.fib (m + 1) := wrap64_fib (m + 1) (by omega)
  have e1 : wrap64 (2 * (Nat.fib (m + 1) : Int)) = 2 * (Nat.fib (m + 1) : Int) :=
    wrap64_of_fits (by linarith) (by linarith)
  have e2 : wrap64 (2 * (Nat.fib (m + 1) : Int) - Nat.fib m) = 2 * (Nat.fib (m + 1) : Int) - Nat.fib m :=
    wrap64_of_fits (by linarith) (by linarith)
  have e3 := fib_double m
  have e4 : wrap64 (Nat.fib (2 * m)) = Nat.fib (2 * m) := wrap64_fib _ (by omega)
  have e5 : wrap64 ((Nat.fib m : Int) * Nat.fib m) = (Nat.fib m : Int) * Nat.fib m :=
    wrap64_of_fits (by linarith) (by linarith)
  have e6 : wrap64 ((Nat.fib (m + 1) : Int) * Nat.fib (m + 1))
      = (Nat.fib (m + 1) : Int) * Nat.fib (m + 1) :=
    wrap64_of_fits (by linarith) (by linarith)
  have e8 : wrap64 (Nat.fib (2 * m + 1)) = Nat.fib (2 * m + 1) := wrap64_fib _ (by omega)
  have hsum : (Nat.fib (2 * m) : Int) + Nat.fib (2 * m + 1) = (Nat.fib (2 * m + 2) : Int) := by
    have : Nat.fib (2 * m + 2) = Nat.fib (2 * m) + Nat.fib (2 * m + 1) := Nat.fib_add_two
    rw [this]; push_cast; ring
  intro v hv
  unfold fd_step_values fibPair at hv
  simp only [ea, eb, e1, e2, e3, e4, e5, e6, hsqi, e8, hsum, List.mem_append, List.mem_cons,
    List.mem_singleton, List.not_mem_nil, or_false] at hv
  rcases hv with (hv | hv | hv | hv | hv | hv) | hv
  · rw [hv]; exact fits64_of_le_fib _ (m + 3) (by omega) (by linarith) h3i
  · rw [hv]; exact fits64_of_le_fib _ (m + 3) (by omega) (by linarith) (by linarith)
  · rw [hv]; exact fits64_of_le_fib _ (2 * m) (by omega) (Int.natCast_nonneg _) (le_refl _)
  · rw [hv]; exact fits64_of_le_fib _ (2 * m + 1) (by omega) haa0 (by linarith)
  · rw [hv]; exact fits64_of_le_fib _ (2 * m + 1) (by omega) hbb0 (by linarith)
  · rw [hv]; exact fits64_of_le_fib _ (2 * m + 1) (by omega) (Int.natCast_nonneg _) (le_refl _)
  · by_cases hbit : N / 2 ^ j % 2 = 1
    · rw [if_pos ((land_two_pow N j).mpr hbit)] at hv
      have hv2 : v = (Nat.fib (2 * m + 2) : Int) := by simpa using hv
      rw [hv2]
      exact fits64_of_le_fib _ (2 * m + 2) (by omega) (Int.natCast_nonneg _) (le_refl _)
    · rw [if_neg (fun hl => hbit ((land_two_pow N j).mp hl))] at hv
      simp at hv

theorem idx_step (N m t j : Nat) (ht : t ≤ j + 1) :
    (2 * m + N / 2 ^ (j + 1) % 2) * 2 ^ t + N / 2 ^ (j + 1 - t) % 2 ^ t
      = m * 2 ^ (t + 1) + N / 2 ^ (j + 1 + 1 - (t + 1)) % 2 ^ (t + 1) := by
  have hsub : j + 1 + 1 - (t + 1) = j + 1 - t := by omega
  rw [hsub, Nat.mod_pow_succ (b := 2) (k := t), Nat.div_div_eq_div_mul, ← pow_add]
  have hexp : j + 1 - t + t = j + 1 := by omega
  rw [hexp]
  ring

theorem fd_loop_trace_zero (n : Int) (t : Nat) (s : Int × Int) : fd_loop_trace n t 0 s = [] := by
  cases t <;> simp [fd_loop_trace]

theorem fd_loop_trace_entries (N : Nat) :
    ∀ (t j m F : Nat), t ≤ j + 1 → m * 2 ^ t + N / 2 ^ (j + 1 - t) % 2 ^ t ≤ F →
      ∀ e ∈ fd_loop_trace (N : Int) t (2 ^ j) (fibPair m),
        ∃ j2 m2, e = (2 ^ j2, fibPair m2) ∧ 2 * m2 + N / 2 ^ j2 % 2 ≤ F := by
  intro t
  induction t with
  | zero => intro j m F _ _ e he; simp [fd_loop_trace] at he
  | succ t ih =>
    intro j m F ht hF e he
    have hpos : (2 : Nat) ^ j ≠ 0 := by positivity
    rw [fd_loop_trace, if_neg hpos, fd_step_fibPair] at he
    cases j with
    | zero =>
      have ht0 : t = 0 := by omega
      subst ht0
      have h0 : (2 : Nat) ^ 0 / 2 = 0 := by norm_num
      rw [h0, fd_loop_trace_zero] at he
      have he2 : e = (2 ^ 0, fibPair m) := by simpa using he
      refine ⟨0, m, he2, ?_⟩
      simp at hF ⊢
      omega
    | succ j' =>
      have hhalf : (2 : Nat) ^ (j' + 1) / 2 = 2 ^ j' := by
        rw [pow_succ]; exact Nat.mul_div_cancel _ (by norm_num)
      rw [hhalf] at he
      have hidx := idx_step N m t j' (by omega)
      rw [← hidx] at hF
      rcases List.mem_cons.mp he with he1 | he2
      · refine ⟨j' + 1, m, he1, ?_⟩
        have hge : (2 * m + N / 2 ^ (j' + 1) % 2) * 1 ≤ (2 * m + N / 2 ^ (j' + 1) % 2) * 2 ^ t :=
          Nat.mul_le_mul_left _ (Nat.one_le_two_pow)
        omega
      · exact ih j' _ F (by omega) hF e he2

theorem fd_loop_trace_fuel (n : Int) :
    ∀ (t k i : Nat) (s : Int × Int), i < 2 ^ t →
      fd_loop_trace n (t + k) i s = fd_loop_trace n t i s := by
  intro t
  induction t with
  | zero =>
    intro k i s hi
    have h0 : i = 0 := by simpa using hi
    subst h0
    rw [fd_loop_trace_zero, fd_loop_trace_zero]
  | succ t ih =>
    intro k i s hi
    have hk : t + 1 + k = (t + k) + 1 := by omega
    rw [hk, fd_loop_trace, fd_loop_trace]
    by_cases h0 : i = 0
    · simp [h0]
    · rw [if_neg h0, if_neg h0]
      congr 1
      apply ih
      rw [pow_succ] at hi
      omega

theorem fd_trace_values_fit (N j : Nat) (hj : j < 32) (hN : N < 2 ^ (j + 1)) (h91 : N ≤ 91) :
    ∀ v ∈ trace_values (N : Int) (fd_loop_trace (N : Int) 32 (2 ^ j) (0, 1)), fits64 v = true := by
  have hfuel := fd_loop_trace_fuel (N : Int) (j + 1) (31 - j) (2 ^ j) (0, 1)
    (Nat.pow_lt_pow_right (by norm_num) (by omega))
  have h32 : j + 1 + (31 - j) = 32 := by omega
  rw [h32] at hfuel
  rw [hfuel, ← fibPair_zero]
  intro v hv
  unfold trace_values at hv
  rw [List.mem_flatMap] at hv
  obtain ⟨e, he, hve⟩ := hv
  obtain ⟨j2, m2, rfl, hle⟩ := fd_loop_trace_entries N (j + 1) j 0 N (le_refl _)
    (by rw [Nat.sub_self, pow_zero, Nat.div_one, Nat.mod_eq_of_lt hN]; omega) e he
  exact fd_step_values_fit N j2 m2 (by omega) v hve

set_option maxRecDepth 1000000 in
/-- C15 (counterexample). At `n = 92` the last iteration of `fast_doubling` forms
`t2 = a * a + b * b = F(93) = 12200160415121876738`, which is outside the signed 64-bit
range. -/
theorem fast_doubling_values_92 :
    (12200160415121876738 : Int) ∈ trace_values 92 (fast_doubling_trace 92)
      ∧ fits64 12200160415121876738 = false := by
  decide

/-- C15 (amended). For every `n` in `[0, 91]` for `fast_doubling`, and every `n` in
`[1, 91]` for `fast_doubling_clz`, every intermediate value the loop computes (`2 * b`,
`2 * b - a`, `t1`, `a * a`, `b * b`, `t2`, and `t1 + t2` when it is computed) lies
within the signed 64-bit range. -/
theorem fast_doubling_values_fit (n : Int) (h0 : 0 ≤ n) (h91 : n ≤ 91) :
    (∀ v ∈ trace_values n (fast_doubling_trace n), fits64 v = true)
      ∧ (1 ≤ n → ∃ tr, fast_doubling_clz_trace n = some tr
          ∧ ∀ v ∈ trace_values n tr, fits64 v = true) := by
  obtain ⟨N, rfl⟩ := Int.eq_ofNat_of_zero_le h0
  have hN91 : N ≤ 91 := by omega
  have hN : N < 2 ^ 32 := by
    have : (91 : Nat) < 2 ^ 32 := by norm_num
    omega
  refine ⟨?_, ?_⟩
  · unfold fast_doubling_trace
    exact fd_trace_values_fit N 31 (by norm_num) hN hN91
  · intro h1
    have hN1 : 1 ≤ N := by omega
    have hlog : Nat.log2 N < 32 := (Nat.log2_lt (by omega)).mpr hN
    have hexp : 31 - (31 - Nat.log2 N) = Nat.log2 N := by omega
    refine ⟨fd_loop_trace (N : Int) 32 (2 ^ Nat.log2 N) (0, 1), ?_, ?_⟩
    · unfold fast_doubling_clz_trace
      rw [toU32_natCast N hN, builtin_clz_pos N hN1]
      simp only [hexp]
    · exact fd_trace_values_fit N (Nat.log2 N) hlog Nat.lt_log2_self hN91

theorem fast_doubling_values_fit_witness :
    (0 : Int) ≤ 91 ∧ (91 : Int) ≤ 91
      ∧ (∀ v ∈ trace_values 91 (fast_doubling_trace 91), fits64 v = true)
      ∧ ((1 : Int) ≤ 91 → ∃ tr, fast_doubling_clz_trace 91 = some tr
          ∧ ∀ v ∈ trace_values 91 tr, fits64 v = true) :=
  ⟨by decide, by decide, fast_doubling_values_fit 91 (by decide) (by decide)⟩

/-! ## `BigN_add`: adding zero, the size of the sum, normalization -/

theorem limbAt_zero (i : Nat) : limbAt (BigN_new 1) i = 0 := by
  unfold limbAt BigN_new
  simp only
  split_ifs with h
  · have : i = 0 := by omega
    subst this; rfl
  · rfl

theorem carryAt_zero (a : BigN) (ha : ∀ x ∈ a.val, x < 2 ^ 32) :
    ∀ i, carryAt a (BigN_new 1) i = 0 := by
  intro i
  induction i with
  | zero => rfl
  | succ i ih =>
    rw [carryAt, ih, limbAt_zero]
    have := limbAt_lt a ha i
    rw [if_neg (by unfold UINT_MAX; norm_num at this ⊢; omega)]

theorem sumLimb_zero (a : BigN) (ha : ∀ x ∈ a.val, x < 2 ^ 32) (i : Nat) :
    sumLimb a (BigN_new 1) i = limbAt a i := by
  unfold sumLimb
  rw [carryAt_zero a ha, limbAt_zero, and_UINT_MAX]
  exact Nat.mod_eq_of_lt (limbAt_lt a ha i)

theorem magnitude_new_one : magnitude (BigN_new 1) = 0 := by decide

/-- C12. For every `BigN` `a` with at least one limb and `z = BigN_new(1)`,
`BigN_add(a, z)` has the magnitude of `a`; and when the most significant limb of `a` is
non-zero the sum has the size of `a` and, limb by limb, the limbs of `a`. -/
theorem BigN_add_zero (a : BigN) (ha : a.wf) (h1 : 1 ≤ a.size) :
    magnitude (BigN_add a (BigN_new 1)) = magnitude a
      ∧ (a.val.getD (a.size - 1) 0 ≠ 0 →
          (BigN_add a (BigN_new 1)).size = a.size
            ∧ ∀ i, i < a.size → (BigN_add a (BigN_new 1)).val.getD i 0 = a.val.getD i 0) := by
  have hsz := wf_size_lt a ha
  have hmax : max a.size (BigN_new 1).size = a.size := max_eq_left h1
  have hbound : max a.size (BigN_new 1).size + 1 < 4294967296 := by rw [hmax]; omega
  refine ⟨?_, ?_⟩
  · rw [BigN_add_magnitude a (BigN_new 1) ha.2.1 (by decide) hbound, magnitude_new_one]
    rfl
  · intro _
    refine ⟨?_, ?_⟩
    · rw [BigN_add_size a (BigN_new 1) hbound, if_pos (carryAt_zero a ha.2.1 _), hmax]
    · intro i hi
      rw [BigN_add_val_getD a (BigN_new 1) hbound, hmax, if_pos (by omega),
        sumLimb_zero a ha.2.1]
      unfold limbAt
      rw [if_pos hi]

theorem BigN_add_zero_witness :
    BigN.wf ⟨[5, 7], 2, 0⟩ ∧ 1 ≤ (BigN.mk [5, 7] 2 0).size
      ∧ magnitude (BigN_add ⟨[5, 7], 2, 0⟩ (BigN_new 1)) = magnitude ⟨[5, 7], 2, 0⟩
      ∧ ((BigN.mk [5, 7] 2 0).val.getD ((BigN.mk [5, 7] 2 0).size - 1) 0 ≠ 0 →
          (BigN_add ⟨[5, 7], 2, 0⟩ (BigN_new 1)).size = (BigN.mk [5, 7] 2 0).size
            ∧ ∀ i, i < (BigN.mk [5, 7] 2 0).size →
                (BigN_add ⟨[5, 7], 2, 0⟩ (BigN_new 1)).val.getD i 0
                  = (BigN.mk [5, 7] 2 0).val.getD i 0) :=
  ⟨by decide, by decide, BigN_add_zero ⟨[5, 7], 2, 0⟩ (by decide) (by decide)⟩

/-- C16. For `BigN` values `a` and `b` with at least one limb and
`m = max(a.size, b.size)`: `BigN_add(a, b)` allocates `m + 1` limbs, has size `m + 1`
when limb `m` of the sum (the final carry) is non-zero and size `m` otherwise; so at most
one limb is dropped, and the size is never `0`. -/
theorem BigN_add_size_rule (a b : BigN) (ha : a.wf) (hb : b.wf) (ha1 : 1 ≤ a.size)
    (hb1 : 1 ≤ b.size) :
    (BigN_add a b).val.length = max a.size b.size + 1
      ∧ ((BigN_add a b).val.getD (max a.size b.size) 0 ≠ 0 →
          (BigN_add a b).size = max a.size b.size + 1)
      ∧ ((BigN_add a b).val.getD (max a.size b.size) 0 = 0 →
          (BigN_add a b).size = max a.size b.size)
      ∧ ((BigN_add a b).size = max a.size b.size
          ∨ (BigN_add a b).size = max a.size b.size + 1)
      ∧ (BigN_add a b).size ≠ 0 := by
  have h1 := wf_size_lt a ha
  have h2 := wf_size_lt b hb
  have hbound : max a.size b.size + 1 < 4294967296 := by
    have : max a.size b.size < 201326592 := max_lt h1 h2
    omega
  have hm1 : 1 ≤ max a.size b.size := le_trans ha1 (le_max_left _ _)
  have _hm2 : 1 ≤ max a.size b.size := le_trans hb1 (le_max_right _ _)
  have htop : (BigN_add a b).val.getD (max a.size b.size) 0 = carryAt a b (max a.size b.size) := by
    rw [BigN_add_val_getD a b hbound, if_pos (by omega),
      sumLimb_top a b _ (le_max_left _ _) (le_max_right _ _)]
  have hsize := BigN_add_size a b hbound
  refine ⟨BigN_add_val_length a b hbound, ?_, ?_, ?_, ?_⟩
  · intro h
    rw [htop] at h
    rw [hsize, if_neg h]
  · intro h
    rw [htop] at h
    rw [hsize, if_pos h]
  · rw [hsize]
    split_ifs
    · exact Or.inl rfl
    · exact Or.inr rfl
  · rw [hsize]
    split_ifs <;> omega

theorem BigN_add_size_rule_witness :
    BigN.wf ⟨[0, 0], 2, 0⟩ ∧ BigN.wf ⟨[0], 1, 0⟩
      ∧ 1 ≤ (BigN.mk [0, 0] 2 0).size ∧ 1 ≤ (BigN.mk [0] 1 0).size
      ∧ (BigN_add ⟨[0, 0], 2, 0⟩ ⟨[0], 1, 0⟩).size
          = max (BigN.mk [0, 0] 2 0).size (BigN.mk [0] 1 0).size :=
  ⟨by decide, by decide, by decide, by decide,
    (BigN_add_size_rule ⟨[0, 0], 2, 0⟩ ⟨[0], 1, 0⟩ (by decide) (by decide) (by decide)
      (by decide)).2.2.1 (by decide)⟩

theorem normalized_iff (n : BigN) : n.normalized ↔ n.normalized_spec := by
  unfold BigN.normalized BigN.normalized_spec
  constructor
  · rintro ⟨h1, h⟩
    refine ⟨h1, ?_⟩
    by_cases htop : n.val.getD (n.size - 1) 0 = 0
    · right
      rcases h with h | h
      · refine ⟨?_, h⟩
        rw [h] at htop
        unfold magnitude
        rw [h, show List.range 1 = [0] from rfl]
        simpa using htop
      · exact absurd htop h
    · exact Or.inl htop
  · rintro ⟨h1, h⟩
    refine ⟨h1, ?_⟩
    rcases h with h | ⟨_, h⟩
    · exact Or.inr h
    · exact Or.inl h

theorem fib_sequence_BigN_good (k : Int) (r : BigN) (h0 : 0 ≤ k)
    (h : fib_sequence_BigN k = some r) : r.good := by
  by_cases hk : k < 2147483647
  · obtain ⟨K, rfl⟩ := Int.eq_ofNat_of_zero_le h0
    obtain ⟨r2, hr2, _, hgood⟩ := fib_sequence_BigN_spec K (by omega)
    rw [hr2] at h
    have : r2 = r := Option.some.inj h
    rw [← this]; exact hgood
  · rw [fib_sequence_BigN_none k (by unfold INT_MAX; omega)] at h
    exact absurd h (by simp)

/-- C17. If `a` and `b` are normalized (at least one limb, the most significant limb
non-zero unless the value is zero with size 1), then `BigN_add(a, b)` is normalized and
has sign `0`; and for every `k >= 0` the result of `fib_sequence_BigN(k)` is normalized
(for `k < 2147483647` there is a result). -/
theorem normalization_invariant :
    (∀ a b : BigN, a.wf → b.wf → a.normalized_spec → b.normalized_spec →
        (BigN_add a b).normalized_spec ∧ (BigN_add a b).sign = 0)
      ∧ (∀ (k : Int) (r : BigN), 0 ≤ k → fib_sequence_BigN k = some r → r.normalized_spec)
      ∧ (∀ k : Int, 0 ≤ k → k < 2147483647 →
          ∃ r, fib_sequence_BigN k = some r ∧ r.normalized_spec) := by
  refine ⟨?_, ?_, ?_⟩
  · intro a b ha hb hna hnb
    have h1 := wf_size_lt a ha
    have h2 := wf_size_lt b hb
    have hbound : max a.size b.size + 1 < 4294967296 := by
      have : max a.size b.size < 201326592 := max_lt h1 h2
      omega
    exact ⟨(normalized_iff _).mp (BigN_add_normalized a b hbound ((normalized_iff a).mpr hna)
      ((normalized_iff b).mpr hnb)), BigN_add_sign a b⟩
  · intro k r h0 h
    exact (normalized_iff r).mp (fib_sequence_BigN_good k r h0 h).2.2
  · intro k h0 hk
    obtain ⟨K, rfl⟩ := Int.eq_ofNat_of_zero_le h0
    obtain ⟨r, hr, _, hgood⟩ := fib_sequence_BigN_spec K (by omega)
    exact ⟨r, hr, (normalized_iff r).mp hgood.2.2⟩

theorem normalization_invariant_witness :
    BigN.wf ⟨[4294967295], 1, 0⟩ ∧ BigN.wf ⟨[1], 1, 0⟩
      ∧ BigN.normalized_spec ⟨[4294967295], 1, 0⟩ ∧ BigN.normalized_spec ⟨[1], 1, 0⟩
      ∧ (BigN_add ⟨[4294967295], 1, 0⟩ ⟨[1], 1, 0⟩).normalized_spec
      ∧ (BigN_add ⟨[4294967295], 1, 0⟩ ⟨[1], 1, 0⟩).sign = 0 :=
  ⟨by decide, by decide, (normalized_iff _).mp (by decide), (normalized_iff _).mp (by decide),
    normalization_invariant.1 ⟨[4294967295], 1, 0⟩ ⟨[1], 1, 0⟩ (by decide) (by decide)
      ((normalized_iff _).mp (by decide)) ((normalized_iff _).mp (by decide))⟩

/-! ## `fib_read`: the buffer -/

theorem memmove_length (s : List Nat) (p : Nat) (l : List Nat) (h : ∀ x ∈ l, x ≠ 0)
    (hdrop : s.drop p = l ++ [0]) :
    (memmove s p (strlen (s.drop p) + 1)).length = s.length := by
  have hlen := congrArg List.length hdrop
  rw [List.length_drop, List.length_append, List.length_singleton] at hlen
  unfold memmove strlen
  rw [hdrop, takeWhile_ne_zero l [] h, List.take_of_length_le (by simp), List.length_append,
    List.length_append, List.length_singleton, List.length_drop]
  omega

theorem BigN_to_string_buffer (n : BigN) (hwf : n.wf) (hs0 : n.sign = 0) :
    ∃ buf, BigN_to_string n = some buf ∧ buf.length = BigN_to_string_len n := by
  obtain ⟨_, hlimbs, hbound⟩ := hwf
  norm_num at hbound
  have hsz : n.size < 201326592 := by omega
  have hcount : (wrap32 ((n.size : Int) - 1) + 1).toNat = n.size := by
    unfold wrap32
    by_cases h0 : n.size = 0
    · rw [h0]; decide
    · rw [Int.emod_eq_of_lt (by omega) (by omega)]
      omega
  obtain ⟨hi2, hres, hlen2, hdig2, hval2, hmag⟩ := BigN_to_string_core n hlimbs 0
  have hlen : ((((32 * n.size / 3 + 2 : Nat) : Int) + n.sign) % 18446744073709551616).toNat
      = 32 * n.size / 3 + 2 := by rw [hs0]; omega
  have hj0 : wrap32 (((32 * n.size / 3 + 2 : Nat) : Int) - 2)
      = ((32 * n.size / 3 + 0 : Nat) : Int) := by unfold wrap32; omega
  obtain ⟨htrim, _, _⟩ := trim_spec hi2 hdig2 (by omega)
  have hmove := memmove_length (hi2 ++ [0]) _ (decimal (decVal hi2))
    (digits_ne_zero _ (decimal_isDigits _)) htrim
  refine ⟨memmove (hi2 ++ [0]) (BigN_to_string_skip (hi2 ++ [0]) (hi2 ++ [0]).length 0)
    (strlen (List.drop (BigN_to_string_skip (hi2 ++ [0]) (hi2 ++ [0]).length 0) (hi2 ++ [0])) + 1),
    ?_, ?_⟩
  · unfold BigN_to_string
    simp only [hlen, hcount, hj0, Nat.add_sub_cancel]
    rw [show 32 * n.size / 3 + 2 - 1 = 32 * n.size / 3 + 0 + 1 from by omega, hres]
    rw [if_neg (by rw [hs0]; decide)]
  · rw [hmove]
    unfold BigN_to_string_len
    rw [hlen, List.length_append, hlen2]
    simp

/-- C18. For every index `k` in `[0, MAX_LENGTH]` (`MAX_LENGTH` is `100`), the length
`len` that `BigN_to_string` computes for `fib_sequence_BigN(k)` is at most `64`, and the
bytes it leaves are exactly `len` bytes: they fit the 64-byte buffer of `fib_read`. -/
theorem fib_read_buffer (k : Int) (h0 : 0 ≤ k) (hk : k ≤ MAX_LENGTH) :
    MAX_LENGTH = 100
      ∧ ∃ r buf, fib_sequence_BigN k = some r ∧ BigN_to_string_len r ≤ 64
          ∧ BigN_to_string r = some buf ∧ buf.length = BigN_to_string_len r := by
  refine ⟨rfl, ?_⟩
  unfold MAX_LENGTH at hk
  obtain ⟨K, rfl⟩ := Int.eq_ofNat_of_zero_le h0
  have hK : K ≤ 100 := by omega
  obtain ⟨r, hr, hmag, hgood⟩ := fib_sequence_BigN_spec K (by omega)
  have hsign := fib_sequence_BigN_sign _ r hr
  have hsize := good_size_bound r hgood K (by rw [hmag]; exact fib_lt_two_pow K)
  have hsz4 : r.size ≤ 4 := by omega
  have hwf : r.wf := by
    refine ⟨hgood.1, hgood.2.1, ?_⟩
    norm_num
    omega
  obtain ⟨buf, hbuf, hlen⟩ := BigN_to_string_buffer r hwf hsign
  refine ⟨r, buf, hr, ?_, hbuf, hlen⟩
  have hq : 32 * r.size / 3 + 2 ≤ 44 := by omega
  unfold BigN_to_string_len
  rw [hsign, Int.add_zero, Int.emod_eq_of_lt (by omega) (by omega), Int.toNat_ofNat]
  omega

theorem fib_read_buffer_witness :
    (0 : Int) ≤ 100 ∧ (100 : Int) ≤ MAX_LENGTH
      ∧ MAX_LENGTH = 100
      ∧ ∃ r buf, fib_sequence_BigN 100 = some r ∧ BigN_to_string_len r ≤ 64
          ∧ BigN_to_string r = some buf ∧ buf.length = BigN_to_string_len r :=
  ⟨by decide, by decide, fib_read_buffer 100 (by decide) (by decide)⟩

end Fibdrv
